import Mathlib

/-!
# jsext-framework: URL registry, scroll-page controller, JWT decoder, chart helpers

A shallow embedding of `router/urlmap.go` (the ordered URL registry), of
`app/scroll/scroll.go` (slug generation and the scroll-page controller with its wheel and
hash listeners), of `tokens/decoding.go` (the JWT decoder) and of `Min` and `Max` of
`graphs/charts/charts.go`, with the properties proved about them.

Conventions of the embedding

* A Go `string` is a Lean `String`; rune-level loops run over `String.data`.
* The Unicode tables of the Go standard library are not part of the repository.
  They are taken as a parameter `T : UnicodeTables`; the ASCII fast paths of
  `unicode.ToUpper`, `unicode.ToLower`, `unicode.IsLetter` and `unicode.IsDigit`
  are embedded as written in the standard library.
* `*elements.Element` is a non-nil reference `Ptr` into a heap; the element library is
  external, its calls are recorded as heap updates and DOM effects.
* A Go `panic` is an explicit outcome, never an exception of the meta-language.
* The callbacks `OnShow`, `OnHide` and `onPageChange` are client code: a call of one is
  recorded as an effect and is taken not to call back into the controller.
* Strings are valid UTF-8 (the case functions of Go replace an invalid byte by U+FFFD).
* The base64 and JSON decoders that `DecodeToken` calls are library code; they are the
  parameter `D : Decoders`.
* The wheel listener is a step function over wheel events and the timer resets of its
  sleeping goroutine; there is no clock.
* The document below the root node of the application is part of the controller state:
  `containerByIndex` indexes the page sections found there and panics when the section
  is not rendered.
-/

set_option autoImplicit false

/-! ## Standard-library string functions used by the sources -/

/-- The case and category tables of the Go `unicode` package for runes outside the
ranges the package decides by comparison. -/
structure UnicodeTables where
  /-- The value of `unicode.To(unicode.UpperCase, r)` for `r > MaxASCII`. -/
  toUpper : Char → Char
  /-- The value of `unicode.To(unicode.LowerCase, r)` for `r > MaxASCII`. -/
  toLower : Char → Char
  /-- Membership in category `L` for `r > MaxASCII`. -/
  isLetter : Char → Bool
  /-- Membership in category `Nd` for `r > MaxLatin1`. -/
  isDigit : Char → Bool

namespace unicode

def MaxASCII : Nat := 0x7F

def MaxLatin1 : Nat := 0xFF

/-- Go `unicode.ToUpper`. -/
def ToUpper (T : UnicodeTables) (r : Char) : Char :=
  if r.toNat ≤ MaxASCII then
    if 'a'.toNat ≤ r.toNat ∧ r.toNat ≤ 'z'.toNat then Char.ofNat (r.toNat - ('a'.toNat - 'A'.toNat))
    else r
  else T.toUpper r

/-- Go `unicode.ToLower`. -/
def ToLower (T : UnicodeTables) (r : Char) : Char :=
  if r.toNat ≤ MaxASCII then
    if 'A'.toNat ≤ r.toNat ∧ r.toNat ≤ 'Z'.toNat then Char.ofNat (r.toNat + ('a'.toNat - 'A'.toNat))
    else r
  else T.toLower r

/-- Go `unicode.IsLetter`; on ASCII the property table marks exactly `A-Z` and `a-z`. -/
def IsLetter (T : UnicodeTables) (r : Char) : Bool :=
  if r.toNat ≤ MaxASCII then
    decide (('A'.toNat ≤ r.toNat ∧ r.toNat ≤ 'Z'.toNat) ∨ ('a'.toNat ≤ r.toNat ∧ r.toNat ≤ 'z'.toNat))
  else T.isLetter r

/-- Go `unicode.IsDigit`. -/
def IsDigit (T : UnicodeTables) (r : Char) : Bool :=
  if r.toNat ≤ MaxLatin1 then decide ('0'.toNat ≤ r.toNat ∧ r.toNat ≤ '9'.toNat)
  else T.isDigit r

end unicode

/-- Unicode tables that leave every rune beyond ASCII unchanged and uncategorised. -/
def asciiTables : UnicodeTables :=
  { toUpper := fun r => r, toLower := fun r => r,
    isLetter := fun _ => false, isDigit := fun _ => false }

namespace strings

/-- Go `strings.ToUpper`: every rune is mapped by `unicode.ToUpper`. -/
def ToUpper (T : UnicodeTables) (s : String) : String :=
  String.mk (s.data.map (unicode.ToUpper T))

/-- Go `strings.ToLower`: every rune is mapped by `unicode.ToLower`. -/
def ToLower (T : UnicodeTables) (s : String) : String :=
  String.mk (s.data.map (unicode.ToLower T))

/-- Go `strings.Split(s, sep)` for a one-rune separator, on runes: the pieces between
the occurrences of `sep`; a string without `sep` gives the one piece `s`. -/
def splitRunes (sep : Char) : List Char → List (List Char)
  | [] => [[]]
  | c :: cs =>
    if c = sep then [] :: splitRunes sep cs
    else
      match splitRunes sep cs with
      | [] => [[c]]
      | piece :: pieces => (c :: piece) :: pieces

/-- Go `strings.Split(s, sep)` for a one-rune separator. -/
def Split (s : String) (sep : Char) : List String :=
  (splitRunes sep s.data).map String.mk

end strings

/-! ## `router/urlmap.go`: the ordered URL registry -/

namespace router

/-- A `*elements.Element`: a non-nil reference to an element. -/
abbrev Ptr := Nat

/-- The part of `elements.Element` that `URLs.Set` reads and writes. -/
structure Element where
  Text : String
  href : String
  /-- The styles given to the element by `AttrStyle`, oldest first. -/
  style : List String := []
  /-- The classes given to the element by `AttrClass`, oldest first. -/
  classes : List String := []
  /-- The value given to the attribute `id` by `SetAttr`. -/
  id : String := ""
deriving DecidableEq, Repr

/-- What lives outside the registry: the elements the pointers refer to, and the
elements removed from the DOM so far (oldest first). -/
structure Heap where
  elems : Ptr → Element
  removed : List Ptr

/-- A Go `map[string]*elements.Element`: a finite list of bindings, at most one a key. -/
abbrev GoMap := List (String × Ptr)

namespace GoMap

/-- The comma-ok lookup `v, ok := m[key]`. -/
def get (m : GoMap) (key : String) : Option Ptr :=
  match m with
  | [] => none
  | (k, v) :: rest => if k = key then some v else get rest key

/-- The statement `delete(m, key)`. -/
def delete (m : GoMap) (key : String) : GoMap :=
  m.filter (fun kv => decide (kv.1 ≠ key))

/-- The assignment `m[key] = value`. -/
def set (m : GoMap) (key : String) (value : Ptr) : GoMap :=
  (key, value) :: delete m key

/-- The builtin `len(m)`. -/
def len (m : GoMap) : Nat := m.length

end GoMap

/-- The struct `URLs`. -/
structure URLs where
  order : List String
  urls : GoMap
deriving DecidableEq, Repr

/-- The constructor `NewURLs`. -/
def NewURLs : URLs := { order := [], urls := [] }

/-- The result of a call on the registry: the registry and the heap as the call left
them, and the panic message when the call panicked. -/
structure Outcome where
  u : URLs
  heap : Heap
  panicked : Option String

/-- Method `URLs.Get`: `none` is the nil pointer a Go map yields for an absent key. -/
def URLs.Get (T : UnicodeTables) (u : URLs) (key : String) : Option Ptr :=
  u.urls.get (strings.ToUpper T key)

/-- The three calls `GetAttr("href")`, `Delete("href")`, `AttrHref(RT_PREFIX + href)`
on the element `value`. -/
def rewriteHref (rtPrefix : String) (heap : Heap) (value : Ptr) : Heap :=
  { heap with elems := fun p =>
      if p = value then { heap.elems p with href := rtPrefix ++ (heap.elems p).href }
      else heap.elems p }

/-- The assignment `value.Text = key`. -/
def setText (heap : Heap) (value : Ptr) (key : String) : Heap :=
  { heap with elems := fun p =>
      if p = value then { heap.elems p with Text := key } else heap.elems p }

/-- Method `URLs.Set`. `rtPrefix` is the package constant `RT_PREFIX`; `external` is
the variadic argument. -/
def URLs.Set (rtPrefix : String) (T : UnicodeTables) (u : URLs) (heap : Heap)
    (key : String) (value : Ptr) (external : List Bool) : Outcome :=
  let heap1 :=
    if external.length = 0 ∨ (external.length > 0 ∧ external.head? ≠ some true) then
      rewriteHref rtPrefix heap value
    else heap
  let heap2 := if (heap1.elems value).Text = "" then setText heap1 value key else heap1
  let key := strings.ToUpper T key
  match u.urls.get key with
  | some _ => { u := u, heap := heap2, panicked := some ("URL already exists: " ++ key) }
  | none =>
    { u := { order := u.order ++ [key], urls := u.urls.set key value },
      heap := heap2, panicked := none }

/-- Method `URLs.SetRaw`. -/
def URLs.SetRaw (T : UnicodeTables) (u : URLs) (heap : Heap) (key : String) (value : Ptr) :
    Outcome :=
  let key := strings.ToUpper T key
  match u.urls.get key with
  | some _ => { u := u, heap := heap, panicked := some ("URL already exists: " ++ key) }
  | none =>
    { u := { order := u.order ++ [key], urls := u.urls.set key value },
      heap := heap, panicked := none }

/-- The loop of `URLs.Delete` over `u.order`: the first entry equal to `key` is cut
out and the loop breaks. -/
def removeFirst (key : String) : List String → List String
  | [] => []
  | v :: rest => if v = key then rest else v :: removeFirst key rest

/-- Method `URLs.Delete`. -/
def URLs.Delete (T : UnicodeTables) (u : URLs) (heap : Heap) (key : String) : Outcome :=
  let key := strings.ToUpper T key
  match u.urls.get key with
  | none => { u := u, heap := heap, panicked := some ("URL does not exist: " ++ key) }
  | some element =>
    { u := { order := removeFirst key u.order, urls := u.urls.delete key },
      heap := { heap with removed := heap.removed ++ [element] },
      panicked := none }

/-- Method `URLs.InOrder`; an entry `none` is a nil pointer. -/
def URLs.InOrder (u : URLs) (reverse : List Bool) : List (Option Ptr) :=
  if reverse.length > 0 ∧ reverse.head? = some true then
    u.order.reverse.map (fun k => u.urls.get k)
  else
    u.order.map (fun k => u.urls.get k)

/-- Method `URLs.ForEach`: the arguments the callback `f` is called with, in call order. -/
def URLs.ForEach (u : URLs) (reverse : List Bool) : List (String × Option Ptr) :=
  if reverse.length > 0 ∧ reverse.head? = some true then
    u.order.reverse.map (fun k => (k, u.urls.get k))
  else
    u.order.map (fun k => (k, u.urls.get k))

/-- Method `URLs.Len`. -/
def URLs.Len (u : URLs) : Nat := u.urls.len

/-- Method `URLs.Keys`. -/
def URLs.Keys (u : URLs) : List String := u.order

/-- A Go `interface{}` value in an option record of `FromMap`. -/
inductive Value where
  /-- The nil interface: what `v[key]` yields for an absent key. -/
  | nil
  | string (s : String)
  | bool (b : Bool)
  /-- A `[]string`. -/
  | strings (l : List String)
  /-- A value of any other type, with the name of the type. -/
  | other (goType : String)
deriving DecidableEq, Repr

/-- The dynamic type of a value, as the runtime prints it. -/
def Value.typeName : Value → String
  | .nil => "nil"
  | .string _ => "string"
  | .bool _ => "bool"
  | .strings _ => "[]string"
  | .other goType => goType

/-- A `map[string]interface{}`: a finite list of bindings, at most one a key. -/
abbrev Record := List (String × Value)

/-- The index expression `v[key]`. -/
def Record.index (v : Record) (key : String) : Value :=
  match v with
  | [] => .nil
  | (k, x) :: rest => if k = key then x else Record.index rest key

/-- The message of the panic of a failed type assertion `x.(wanted)`. -/
def conversionPanic (x : Value) (wanted : String) : String :=
  "interface conversion: interface {} is " ++ x.typeName ++ ", not " ++ wanted

/-- The type assertion `x.(string)`; an error is the panic. -/
def Value.assertString (x : Value) : Except String String :=
  match x with
  | .string s => .ok s
  | _ => .error (conversionPanic x "string")

/-- The type assertion `x.(bool)`. -/
def Value.assertBool (x : Value) : Except String Bool :=
  match x with
  | .bool b => .ok b
  | _ => .error (conversionPanic x "bool")

/-- The type assertion `x.([]string)`. -/
def Value.assertStrings (x : Value) : Except String (List String) :=
  match x with
  | .strings l => .ok l
  | _ => .error (conversionPanic x "[]string")

/-- The local variables of one round of the loop of `FromMap`. -/
structure MapFields where
  name : String
  href : String
  text : String
  external : Bool
  hide : Bool
  classes : List String
  styles : List String
  id : String
deriving DecidableEq, Repr

/-- The eight guarded assignments at the head of the loop of `FromMap`, in program
order; an error is the panic of a type assertion. -/
def readFields (v : Record) : Except String MapFields := do
  let name ← if v.index "name" ≠ .nil then (v.index "name").assertString else pure ""
  let href ← if v.index "href" ≠ .nil then (v.index "href").assertString else pure ""
  let text ← if v.index "text" ≠ .nil then (v.index "text").assertString else pure ""
  let external ← if v.index "external" ≠ .nil then (v.index "external").assertBool
    else pure false
  let hide ← if v.index "hide" ≠ .nil then (v.index "hide").assertBool else pure false
  let classes ← if v.index "class" ≠ .nil then (v.index "classes").assertStrings
    else pure []
  let id ← if v.index "id" ≠ .nil then (v.index "id").assertString else pure ""
  let styles ← if v.index "style" ≠ .nil then (v.index "style").assertStrings else pure []
  pure { name := name, href := href, text := text, external := external, hide := hide,
         classes := classes, styles := styles, id := id }

/-- A change of the one element `value`. -/
def updateElem (heap : Heap) (value : Ptr) (f : Element → Element) : Heap :=
  { heap with elems := fun p => if p = value then f (heap.elems p) else heap.elems p }

/-- The element statements of one round of `FromMap`: `elements.A(href, text)`, which
returns the new element `elem`, and the guarded calls `AttrStyle("display:none")`,
`AttrClass(classes...)`, `SetAttr("id", id)` and `AttrStyle(styles...)` on it. -/
def buildLink (heap : Heap) (elem : Ptr) (f : MapFields) : Heap :=
  let heap := updateElem heap elem (fun _ => { Text := f.text, href := f.href })
  let heap := if f.hide then
      updateElem heap elem (fun e => { e with style := e.style ++ ["display:none"] })
    else heap
  let heap := if f.classes.length > 0 then
      updateElem heap elem (fun e => { e with classes := e.classes ++ f.classes })
    else heap
  let heap := if f.id ≠ "" then updateElem heap elem (fun e => { e with id := f.id })
    else heap
  if f.styles.length > 0 then
    updateElem heap elem (fun e => { e with style := e.style ++ f.styles })
  else heap

/-- Method `URLs.FromMap`. The element made for the first record is `fresh`, the
elements for the following records are the following addresses. A panic ends the loop
and leaves what the earlier rounds did. -/
def URLs.FromMap (rtPrefix : String) (T : UnicodeTables) (u : URLs) (heap : Heap)
    (fresh : Ptr) : List Record → Outcome
  | [] => { u := u, heap := heap, panicked := none }
  | v :: maps =>
    match readFields v with
    | .error msg => { u := u, heap := heap, panicked := some msg }
    | .ok f =>
      let heap1 := buildLink heap fresh f
      let o := u.Set rtPrefix T heap1 f.name fresh [f.external]
      match o.panicked with
      | some msg => { u := o.u, heap := o.heap, panicked := some msg }
      | none => URLs.FromMap rtPrefix T o.u o.heap (fresh + 1) maps

/-- One call of a client on the registry. -/
inductive Call where
  | Set (key : String) (value : Ptr) (external : List Bool)
  | SetRaw (key : String) (value : Ptr)
  | Delete (key : String)
deriving DecidableEq, Repr

/-- The outcome of one call. -/
def Call.exec (rtPrefix : String) (T : UnicodeTables) (u : URLs) (heap : Heap) :
    Call → Outcome
  | .Set key value external => u.Set rtPrefix T heap key value external
  | .SetRaw key value => u.SetRaw T heap key value
  | .Delete key => u.Delete T heap key

/-- A sequence of calls, a panic of one call being recovered by the client before the
next: each call starts from the registry and heap the previous one left. -/
def runCalls (rtPrefix : String) (T : UnicodeTables) (u : URLs) (heap : Heap) :
    List Call → URLs × Heap
  | [] => (u, heap)
  | c :: cs =>
    let o := c.exec rtPrefix T u heap
    runCalls rtPrefix T o.u o.heap cs

end router

/-! ## `app/scroll/scroll.go`: slugs and the scroll-page controller -/

namespace scroll

/-- The type `PageDirection` with its five constants (0 to 4); `Initial` is the zero
value a `var p PageDirection` starts with. -/
inductive PageDirection where
  | Initial
  | Up
  | Down
  | Left
  | Right
deriving DecidableEq, Repr

/-- The type `Axis` (an `int8`). -/
abbrev Axis := Int

def ScrollAxisX : Axis := 1

def ScrollAxisY : Axis := 2

/-- The struct `Page`. A callback field holds `true` when the callback is not nil; the
component is what the page renders and is not inspected. -/
structure Page where
  title : String
  hash : String
  OnShow : Bool
  OnHide : Bool
deriving DecidableEq, Repr

/-- The struct `Options`. -/
structure Options where
  ScrollAxis : Axis
  ClassPrefix : String
  ScrollThrough : Bool
deriving DecidableEq, Repr

/-- An element of the document, as far as the controller looks at it: its tag, its
class list and its id. -/
structure Node where
  tag : String
  classList : List String
  id : String
deriving DecidableEq, Repr

/-- The fields of the struct `Application` the page controller uses; `onPageChange`
holds `true` when the hook is not nil. `documentObject` is the root node of the
application, given by the elements below it in document order; the elements that rendered
components bring along are left out and are taken not to carry the class of a page
section. -/
structure Application where
  pages : List Page
  onPageChange : Bool
  currentPage : Int
  Options : Options
  documentObject : List Node := []
deriving DecidableEq, Repr

/-- What a transition does to the world outside the controller, in program order. -/
inductive Effect where
  /-- The call `page.OnHide(page.Component, p)`. -/
  | OnHide (page : Page) (p : PageDirection)
  /-- The call `jsext.Document.Set("title", title)`. -/
  | setTitle (title : String)
  /-- The call `history.pushState(nil, nil, url)`. -/
  | pushState (url : String)
  /-- The call `s.containerByIndex(index).ScrollIntoView(true)`. -/
  | scrollIntoView (index : Int)
  /-- The call `page.OnShow(page.Component, p)`. -/
  | OnShow (page : Page) (p : PageDirection)
  /-- The call `s.onPageChange(index)`. -/
  | onPageChange (index : Int)
  /-- The call `getElementById(id).scrollIntoView({behavior: "smooth"})` on the document. -/
  | scrollIdIntoView (id : String)
deriving DecidableEq, Repr

/-- Method `Options.setDefaults`. -/
def Options.setDefaults (o : Options) : Options :=
  let o := if o.ClassPrefix = "" then { o with ClassPrefix := "jsext-scrollable-app" } else o
  if o.ScrollAxis = 0 then { o with ScrollAxis := ScrollAxisY } else o

/-- One round of the loop of `makeSlug`: the builder contents and `lastLetter` after
the rune `r`. -/
def slugStep (T : UnicodeTables) (st : List Char × Bool) (r : Char) : List Char × Bool :=
  if unicode.IsLetter T r || unicode.IsDigit T r then (st.1 ++ [r], true)
  else ((if st.2 then st.1 ++ ['-'] else st.1), false)

/-- Function `makeSlug`. -/
def makeSlug (T : UnicodeTables) (s : String) : String :=
  let s := strings.ToLower T s
  String.mk (s.data.foldl (slugStep T) ([], false)).1

/-- Method `Application.AddPage`; the new page is the last of `pages`. -/
def Application.AddPage (T : UnicodeTables) (s : Application) (title : String) : Application :=
  { s with pages := s.pages ++ [{ title := title, hash := makeSlug T title,
                                  OnShow := false, OnHide := false }] }

/-- Method `Page.SetOnShow`. -/
def Page.SetOnShow (p : Page) : Page := { p with OnShow := true }

/-- Method `Page.SetOnHide`. -/
def Page.SetOnHide (p : Page) : Page := { p with OnHide := true }

/-- The index expression `s.pages[i]`; `none` is the index-out-of-range panic. -/
def pageAt (pages : List Page) (i : Int) : Option Page :=
  if 0 ≤ i then pages[i.toNat]? else none

/-- The loop of `PageByHash` from position `i` on. -/
def pageByHashFrom (name : String) : List Page → Nat → Option Page × Int
  | [], _ => (none, 0)
  | page :: rest, i =>
    if page.hash = name then (some page, (i : Int)) else pageByHashFrom name rest (i + 1)

/-- Method `Application.PageByHash`; `none` is the nil page. -/
def Application.PageByHash (s : Application) (name : String) : Option Page × Int :=
  pageByHashFrom name s.pages 0

/-- The callback events of a page: nothing when the callback is nil. -/
def fireOnHide (page : Page) (p : PageDirection) : List Effect :=
  if page.OnHide then [Effect.OnHide page p] else []

def fireOnShow (page : Page) (p : PageDirection) : List Effect :=
  if page.OnShow then [Effect.OnShow page p] else []

def fireOnPageChange (s : Application) (index : Int) : List Effect :=
  if s.onPageChange then [Effect.onPageChange index] else []

/-- The first half of `updatePage`: the value of `s.currentPage` after the `switch` on
the direction and the edge policy of `ScrollThrough`. -/
def Application.movedIndex (s : Application) (p : PageDirection) : Int :=
  let cur : Int :=
    match p with
    | .Down | .Right => s.currentPage + 1
    | .Up | .Left => s.currentPage - 1
    | .Initial => 0
  let len : Int := s.pages.length
  if s.Options.ScrollThrough then
    if cur ≥ len then 0 else if cur < 0 then len - 1 else cur
  else
    if cur ≥ len then len - 1 else if cur < 0 then 0 else cur

/-- The call `QuerySelectorAll("." + class)` on a root node, for a class name that is a
CSS identifier: the elements below the root that carry the class, in document order. -/
def querySelectorAll (nodes : List Node) (cls : String) : List Node :=
  nodes.filter (fun n => decide (cls ∈ n.classList))

/-- Method `Application.containerByIndex`: the index expression on the result of
`QuerySelectorAll`; `none` is the index-out-of-range panic. -/
def Application.containerByIndex (s : Application) (index : Int) : Option Node :=
  let found := querySelectorAll s.documentObject (s.Options.ClassPrefix ++ "-page")
  if 0 ≤ index then found[index.toNat]? else none

/-- Method `Application.updatePage`. The result is the controller after the call and
the effects of the call; `none` is a run-time panic: of an index expression on `pages`,
or of `containerByIndex`, which is called after `OnHide`, the title and the history
push, with the moved index already written to `currentPage`. -/
def Application.updatePage (s : Application) (p : PageDirection) :
    Option (Application × List Effect) :=
  let lastPage := s.currentPage
  let cur := s.movedIndex p
  let s1 := { s with currentPage := cur }
  if lastPage ≠ cur then
    match pageAt s.pages lastPage with
    | none => none
    | some currentPage =>
      match pageAt s.pages cur with
      | none => none
      | some page =>
        match s1.containerByIndex cur with
        | none => none
        | some _ =>
          some (s1, fireOnHide currentPage p
                    ++ [Effect.setTitle page.title, Effect.pushState ("#" ++ page.hash),
                        Effect.scrollIntoView cur]
                    ++ fireOnShow page p ++ fireOnPageChange s cur)
  else some (s1, [])

/-- Method `Application.NextPage`. -/
def Application.NextPage (s : Application) : Option (Application × List Effect) :=
  let p : PageDirection :=
    if s.Options.ScrollAxis = ScrollAxisX then .Right
    else if s.Options.ScrollAxis = ScrollAxisY then .Down
    else .Initial
  s.updatePage p

/-- Method `Application.PreviousPage`. -/
def Application.PreviousPage (s : Application) : Option (Application × List Effect) :=
  let p : PageDirection :=
    if s.Options.ScrollAxis = ScrollAxisX then .Left
    else if s.Options.ScrollAxis = ScrollAxisY then .Up
    else .Initial
  s.updatePage p

/-- The `hashchange` listener installed by `Application.Run`; `hash` is the value of
`window.location.hash` when the event fires. `none` is a run-time panic. -/
def Application.onHashChange (s : Application) (hash : String) :
    Option (Application × List Effect) :=
  match (strings.Split hash '#')[1]? with
  | none => none
  | some name =>
    match s.PageByHash name with
    | (none, _) => some (s, [])
    | (some page, index) =>
      let direction : PageDirection :=
        if index > s.currentPage then
          if s.Options.ScrollAxis = ScrollAxisX then .Right
          else if s.Options.ScrollAxis = ScrollAxisY then .Down
          else .Initial
        else if index < s.currentPage then
          if s.Options.ScrollAxis = ScrollAxisX then .Left
          else if s.Options.ScrollAxis = ScrollAxisY then .Up
          else .Initial
        else .Initial
      match pageAt s.pages s.currentPage with
      | none => none
      | some oldPage =>
        some ({ s with currentPage := index },
              fireOnHide oldPage direction ++ fireOnShow page direction)

/-- The slice expression `hash[1:]` on a non-empty string. It cuts one byte off: the
rest is a string again when the first rune is one byte long; otherwise (`none`) it is a
byte sequence that is not valid UTF-8, which is the hash of no page. -/
def dropFirstByte (hash : String) : Option String :=
  match hash.data with
  | [] => none
  | c :: rest => if c.toNat ≤ unicode.MaxASCII then some (String.mk rest) else none

/-- The elements `Run` creates below the root node for the pages: the scroll
container, the scrollable page in it, and in the scrollable page one `section` for every
page, with the class of a page section and the hash of the page as its id. -/
def Application.renderSections (s : Application) : List Node :=
  [{ tag := "section", classList := [s.Options.ClassPrefix ++ "-scrollable-page-container"],
     id := "" },
   { tag := "section", classList := [s.Options.ClassPrefix ++ "-scrollable-page"], id := "" }]
  ++ s.pages.map (fun page =>
      { tag := "section", classList := [s.Options.ClassPrefix ++ "-page"], id := page.hash })

/-- The part of method `Application.Run` that touches the controller: `setDefaults`,
the rendering of the page sections below the root node and, after the listeners are
installed, the block that sets the initial page. `hash` is the value of
`document.location.hash`. The result is the controller when `Run` starts to wait on
`waiter`, with the effects of the initial-page block; `none` is a run-time panic. -/
def Application.Run (s : Application) (hash : String) : Option (Application × List Effect) :=
  let s := { s with Options := s.Options.setDefaults }
  let s := { s with documentObject := s.documentObject ++ s.renderSections }
  if hash ≠ "" then
    let found : Option Page × Int :=
      match dropFirstByte hash with
      | some name => s.PageByHash name
      | none => (none, 0)
    match found with
    | (none, _) => none
    | (some page, index) =>
      if page.OnShow then
        some ({ s with currentPage := index },
              [Effect.scrollIdIntoView page.hash, Effect.OnShow page .Initial])
      else some (s, [])
  else some (s, [])

/-- The state of the wheel listener of `Run`: the captured variable `scrolled`, and the
number of goroutines asleep in `time.Sleep(500 * time.Millisecond)`. -/
structure Wheel where
  scrolled : Bool
  sleeping : Nat
deriving DecidableEq, Repr

/-- The wheel listener installed by `Run`, on an event with the given `deltaY`. Of
`deltaY` only the order against 10 and -10 is used, so that every `float64` (a NaN
included) behaves as some integer does. `none` is a run-time panic. -/
def Application.onWheel (s : Application) (w : Wheel) (deltaY : Int) :
    Option (Application × Wheel × List Effect) :=
  let dy := deltaY
  if !w.scrolled then
    let moved : Option (Application × List Effect) :=
      if dy > 10 then s.NextPage
      else if dy < -10 then s.PreviousPage
      else some (s, [])
    match moved with
    | none => none
    | some (s1, effects) =>
      some (s1, { scrolled := true, sleeping := w.sleeping + 1 }, effects)
  else some (s, w, [])

/-- The end of the goroutine of the wheel listener: after its sleep it resets
`scrolled`. -/
def Wheel.wake (w : Wheel) : Wheel :=
  { scrolled := false, sleeping := w.sleeping - 1 }

/-- What happens to the wheel listener: a wheel event, or the timer reset of a sleeping
goroutine. -/
inductive WheelEvent where
  | wheel (deltaY : Int)
  | timerReset
deriving DecidableEq, Repr

/-- One step of the wheel listener. A timer reset needs a goroutine asleep; without one
the event does not occur and the step changes nothing. -/
def wheelStep (s : Application) (w : Wheel) :
    WheelEvent → Option (Application × Wheel × List Effect)
  | .wheel deltaY => s.onWheel w deltaY
  | .timerReset => if 0 < w.sleeping then some (s, w.wake, []) else some (s, w, [])

/-- A sequence of steps of the wheel listener, with the effects of all of them. -/
def runWheel (s : Application) (w : Wheel) :
    List WheelEvent → Option (Application × Wheel × List Effect)
  | [] => some (s, w, [])
  | e :: es =>
    match wheelStep s w e with
    | none => none
    | some (s1, w1, effects1) =>
      match runWheel s1 w1 es with
      | none => none
      | some (s2, w2, effects2) => some (s2, w2, effects1 ++ effects2)

end scroll

/-! ## `tokens/decoding.go`: the JWT decoder -/

namespace tokens

/-- An `interface{}` value out of the JSON decoder, as far as `DecodeToken` looks at it. -/
inductive JSONValue where
  | string (s : String)
  /-- A value of any other type. -/
  | other
deriving DecidableEq, Repr

/-- The two library functions `DecodeToken` calls; they are not part of the
repository. -/
structure Decoders where
  /-- The call `base64.RawURLEncoding.DecodeString(s)`: the bytes, or the error for an
  input that is not valid unpadded base64url. -/
  decodeString : String → Except String (List Nat)
  /-- The expression `decoder.ParseBytes(b).Value().(map[string]interface{})`: the
  bindings of the JSON object, or `none` when the expression panics. -/
  parseObject : List Nat → Option (List (String × JSONValue))

/-- The struct `Header`. -/
structure Header where
  Alg : String
  Typ : String
deriving DecidableEq, Repr

/-- The struct `JWTToken`; the nil map of `Payload` is the empty list of bindings. -/
structure JWTToken where
  Header : Header
  Payload : List (String × JSONValue)
  Signature : List Nat
deriving DecidableEq, Repr

/-- The zero value `JWTToken{}`. -/
def JWTToken.zero : JWTToken :=
  { Header := { Alg := "", Typ := "" }, Payload := [], Signature := [] }

/-- The expression `m[key].(string)`; `none` is the panic of the type assertion. -/
def fieldString (m : List (String × JSONValue)) (key : String) : Option String :=
  match m with
  | [] => none
  | (k, x) :: rest =>
    if k = key then
      match x with
      | .string s => some s
      | .other => none
    else fieldString rest key

/-- Function `DecodeToken`. The result is the returned token with the returned error
(`none` for a nil error); no result (`none`) is a run-time panic. -/
def DecodeToken (D : Decoders) (token : String) : Option (JWTToken × Option String) :=
  let parts := strings.Split token '.'
  if parts.length ≠ 3 then some (JWTToken.zero, some "invalid token")
  else
    match D.decodeString (parts.getD 0 "") with
    | .error err => some (JWTToken.zero, some err)
    | .ok header =>
      match D.decodeString (parts.getD 1 "") with
      | .error err => some (JWTToken.zero, some err)
      | .ok payload =>
        match D.decodeString (parts.getD 2 "") with
        | .error err => some (JWTToken.zero, some err)
        | .ok signature =>
          match D.parseObject header with
          | none => none
          | some m =>
            match fieldString m "alg" with
            | none => none
            | some alg =>
              match fieldString m "typ" with
              | none => none
              | some typ =>
                match D.parseObject payload with
                | none => none
                | some claims =>
                  some ({ Header := { Alg := alg, Typ := typ }, Payload := claims,
                          Signature := signature }, none)

end tokens

/-! ## `graphs/charts/charts.go`: the extremum helpers -/

namespace charts

/-- Function `Min` at an integer type. The values are only compared, so that a machine
integer type behaves as the integers do. -/
def Min (a : List Int) : Int :=
  a.foldl (fun min v => if v < min then v else min) 0

/-- Function `Max` at an integer type. -/
def Max (a : List Int) : Int :=
  a.foldl (fun max v => if v > max then v else max) 0

end charts

/-! ## Specification-side definitions -/

namespace router

/-- The representation invariant of a registry: the map binds a key at most once, the
order sequence has no key twice, and the order sequence lists exactly the bound keys. -/
def URLs.Inv (u : URLs) : Prop :=
  (u.urls.map Prod.fst).Nodup ∧ u.order.Nodup ∧ ∀ k, k ∈ u.order ↔ u.urls.get k ≠ none

/-- The registry as the specification describes it, one insertion-ordered list of
entries: the effect of one call. An insertion under a key already present and a
deletion of an absent key fail and change nothing. -/
def specCall (T : UnicodeTables) (entries : List (String × Ptr)) : Call → List (String × Ptr)
  | .Set key value _ =>
    if strings.ToUpper T key ∈ entries.map Prod.fst then entries
    else entries ++ [(strings.ToUpper T key, value)]
  | .SetRaw key value =>
    if strings.ToUpper T key ∈ entries.map Prod.fst then entries
    else entries ++ [(strings.ToUpper T key, value)]
  | .Delete key => entries.filter (fun kv => decide (kv.1 ≠ strings.ToUpper T key))

/-- The entries of the specification's registry after a sequence of calls on the empty
registry, oldest insertion first. -/
def specEntries (T : UnicodeTables) (calls : List Call) : List (String × Ptr) :=
  calls.foldl (specCall T) []

/-- The simulation relation between a registry and the specification's entry list: the
order sequence is the list of entry keys and the map binds every entry. -/
def Sim (u : URLs) (entries : List (String × Ptr)) : Prop :=
  u.Inv ∧ u.order = entries.map Prod.fst ∧ ∀ kv ∈ entries, u.urls.get kv.1 = some kv.2

/-- A heap of untitled elements without target. -/
def blankHeap : Heap := { elems := fun _ => { Text := "", href := "" }, removed := [] }

/-- A registry with the two keys `HOME` and `ABOUT`, inserted in that order. -/
def sampleURLs : URLs := { order := ["HOME", "ABOUT"], urls := [("ABOUT", 2), ("HOME", 1)] }

end router

namespace scroll

/-- The runes the loop of `makeSlug` writes for the remaining input `l` when it is
entered with the flag `lastLetter`. -/
def slugRunes (T : UnicodeTables) : List Char → Bool → List Char
  | [], _ => []
  | r :: rs, lastLetter =>
    if unicode.IsLetter T r || unicode.IsDigit T r then r :: slugRunes T rs true
    else if lastLetter then '-' :: slugRunes T rs false
    else slugRunes T rs false

/-- The property of the lower-case table that slug generation relies on: beyond ASCII,
a lower-case image that is a letter or a digit is its own lower-case image. -/
def LowerStable (T : UnicodeTables) : Prop :=
  ∀ r : Char, unicode.MaxASCII < r.toNat →
    (unicode.IsLetter T (T.toLower r) || unicode.IsDigit T (T.toLower r)) = true →
    unicode.ToLower T (T.toLower r) = T.toLower r

/-- The direction of `NextPage` on a valid axis. -/
def forwardDirection (axis : Axis) : PageDirection :=
  if axis = ScrollAxisX then .Right else .Down

/-- The direction of `PreviousPage` on a valid axis. -/
def backwardDirection (axis : Axis) : PageDirection :=
  if axis = ScrollAxisX then .Left else .Up

/-- The axis is one of the two declared constants. -/
def ValidAxis (o : Options) : Prop :=
  o.ScrollAxis = ScrollAxisX ∨ o.ScrollAxis = ScrollAxisY

/-- A controller without pages, with the given options and an `onPageChange` hook. -/
def newApp (axis : Axis) (scrollThrough : Bool) : Application :=
  { pages := [], onPageChange := true, currentPage := 0,
    Options := { ScrollAxis := axis, ClassPrefix := "", ScrollThrough := scrollThrough } }

/-- Both callbacks set on every page. -/
def withCallbacks (s : Application) : Application :=
  { s with pages := s.pages.map (fun p => p.SetOnShow.SetOnHide) }

/-- The pages `Home`, `About`, `Contact`, added in that order, with all callbacks set. -/
def sampleApp (axis : Axis) (scrollThrough : Bool) : Application :=
  withCallbacks ((((newApp axis scrollThrough).AddPage asciiTables "Home").AddPage
    asciiTables "About").AddPage asciiTables "Contact")

/-- The controller `sampleApp` as `Run` leaves it when the location has no hash: the
defaults are set and the page sections are rendered below the root node. -/
def runningApp (axis : Axis) (scrollThrough : Bool) : Application :=
  { sampleApp axis scrollThrough with
    Options := (sampleApp axis scrollThrough).Options.setDefaults,
    documentObject :=
      [{ tag := "section",
         classList := ["jsext-scrollable-app-scrollable-page-container"], id := "" },
       { tag := "section", classList := ["jsext-scrollable-app-scrollable-page"], id := "" },
       { tag := "section", classList := ["jsext-scrollable-app-page"], id := "home" },
       { tag := "section", classList := ["jsext-scrollable-app-page"], id := "about" },
       { tag := "section", classList := ["jsext-scrollable-app-page"], id := "contact" }] }

def homePage : Page := { title := "Home", hash := "home", OnShow := true, OnHide := true }

def aboutPage : Page := { title := "About", hash := "about", OnShow := true, OnHide := true }

def contactPage : Page :=
  { title := "Contact", hash := "contact", OnShow := true, OnHide := true }

def lowerHomePage : Page := { title := "home", hash := "home", OnShow := true, OnHide := true }

/-- Two pages whose titles `Home` and `home` have the same slug. -/
def sameSlugApp : Application :=
  withCallbacks (((newApp ScrollAxisY false).AddPage asciiTables "Home").AddPage
    asciiTables "home")

/-- The pages `Home` and `About`, added in that order, with no callback set. -/
def plainApp : Application :=
  ((newApp ScrollAxisY false).AddPage asciiTables "Home").AddPage asciiTables "About"

def plainAboutPage : Page :=
  { title := "About", hash := "about", OnShow := false, OnHide := false }

end scroll

namespace router

/-- An option record with the documented fields `name`, `href`, `text` and `class`. -/
def classRecord : Record :=
  [("name", .string "home"), ("href", .string "/home"), ("text", .string "Home"),
   ("class", .strings ["nav"])]

/-- The same record without the field `class`. -/
def plainRecord : Record :=
  [("name", .string "home"), ("href", .string "/home"), ("text", .string "Home")]

end router

namespace tokens

/-- The alphabet of unpadded base64url. -/
def inAlphabet (c : Char) : Bool :=
  c.isAlphanum || c = '-' || c = '_'

/-- Stand-in decoders: a string outside the base64url alphabet is an error, the bytes
of any other string are its rune values; every byte sequence parses to the JSON object
with the fields `alg` and `typ`. -/
def sampleDecoders : Decoders :=
  { decodeString := fun s =>
      if s.data.all inAlphabet then .ok (s.data.map Char.toNat)
      else .error "illegal base64 data",
    parseObject := fun _ => some [("alg", .string "HS256"), ("typ", .string "JWT")] }

end tokens

/-! ## Properties of the URL registry -/

namespace router

namespace GoMap

theorem get_eq_none_iff (m : GoMap) (key : String) :
    m.get key = none ↔ key ∉ m.map Prod.fst := by
  induction m with
  | nil => simp [get]
  | cons kv rest ih =>
    obtain ⟨k, v⟩ := kv
    by_cases h : k = key
    · simp [get, h]
    · simp [get, h, ih, Ne.symm h]

theorem delete_cons (a : String) (v : Ptr) (rest : GoMap) (K : String) :
    delete ((a, v) :: rest) K = if a = K then delete rest K else (a, v) :: delete rest K := by
  unfold delete
  by_cases ha : a = K <;> simp [List.filter_cons, ha]

theorem get_delete (m : GoMap) (K k : String) :
    (m.delete K).get k = if k = K then none else m.get k := by
  induction m with
  | nil => simp [delete, get]
  | cons kv rest ih =>
    obtain ⟨a, v⟩ := kv
    rw [delete_cons]
    by_cases hk : k = K
    · subst hk
      rw [if_pos rfl] at ih
      by_cases ha : a = k
      · simp [ha, ih]
      · simp [ha, ih, get]
    · rw [if_neg hk] at ih
      by_cases ha : a = K
      · subst ha
        have hak : ¬ a = k := fun e => hk e.symm
        simp [ih, hk, get, hak]
      · by_cases hak : a = k
        · simp [ha, hk, get, hak]
        · simp [ha, hk, get, hak, ih]

theorem get_set (m : GoMap) (K k : String) (v : Ptr) :
    (m.set K v).get k = if k = K then some v else m.get k := by
  by_cases hk : k = K
  · subst hk; simp [set, get]
  · simp [set, get, Ne.symm hk, hk, get_delete]

theorem delete_keys_nodup (m : GoMap) (K : String) (h : (m.map Prod.fst).Nodup) :
    ((m.delete K).map Prod.fst).Nodup :=
  h.sublist ((List.filter_sublist m).map Prod.fst)

theorem delete_eq_self (m : GoMap) (K : String) (h : m.get K = none) : m.delete K = m := by
  rw [get_eq_none_iff] at h
  unfold delete
  rw [List.filter_eq_self]
  intro kv hkv
  have : kv.1 ≠ K := fun e => h (e ▸ List.mem_map_of_mem Prod.fst hkv)
  simpa using this

end GoMap

theorem removeFirst_eq_erase (key : String) (l : List String) :
    removeFirst key l = l.erase key := by
  induction l with
  | nil => rfl
  | cons v rest ih =>
    by_cases h : v = key
    · simp [removeFirst, h]
    · simp [removeFirst, h, ih, List.erase_cons_tail]

theorem inv_NewURLs : NewURLs.Inv := by
  simp [URLs.Inv, NewURLs, GoMap.get]

/-- An insertion under an unbound key keeps the representation invariant. -/
theorem inv_insert (u : URLs) (K : String) (v : Ptr) (hinv : u.Inv)
    (hK : u.urls.get K = none) :
    URLs.Inv { order := u.order ++ [K], urls := u.urls.set K v } := by
  obtain ⟨hkeys, hord, hmem⟩ := hinv
  refine ⟨?_, ?_, ?_⟩
  · have hnot : K ∉ (u.urls.delete K).map Prod.fst := by
      rw [← GoMap.get_eq_none_iff, GoMap.get_delete]; simp
    simpa [GoMap.set] using ⟨by simpa using hnot, GoMap.delete_keys_nodup _ K hkeys⟩
  · have hnot : K ∉ u.order := fun h => (hmem K).1 h hK
    exact List.Nodup.append hord (List.nodup_singleton K)
      (by
        intro a ha hK2
        rw [List.mem_singleton] at hK2
        exact hnot (hK2 ▸ ha))
  · intro k
    by_cases hk : k = K
    · simp [hk, GoMap.get_set]
    · simp [hk, GoMap.get_set, hmem k]

/-- The deletion of a key keeps the representation invariant. -/
theorem inv_delete (u : URLs) (K : String) (hinv : u.Inv) :
    URLs.Inv { order := removeFirst K u.order, urls := u.urls.delete K } := by
  obtain ⟨hkeys, hord, hmem⟩ := hinv
  refine ⟨GoMap.delete_keys_nodup _ K hkeys, ?_, ?_⟩
  · rw [removeFirst_eq_erase]; exact hord.erase K
  · intro k
    simp only [removeFirst_eq_erase, hord.mem_erase_iff, GoMap.get_delete]
    by_cases hk : k = K
    · simp [hk]
    · simp [hk, hmem k]

theorem inv_exec (rtPrefix : String) (T : UnicodeTables) (u : URLs) (heap : Heap) (c : Call)
    (hinv : u.Inv) : (c.exec rtPrefix T u heap).u.Inv := by
  cases c with
  | Set key value external =>
    simp only [Call.exec, URLs.Set]
    cases hget : u.urls.get (strings.ToUpper T key) with
    | none => exact inv_insert u _ value hinv hget
    | some e => exact hinv
  | SetRaw key value =>
    simp only [Call.exec, URLs.SetRaw]
    cases hget : u.urls.get (strings.ToUpper T key) with
    | none => exact inv_insert u _ value hinv hget
    | some e => exact hinv
  | Delete key =>
    simp only [Call.exec, URLs.Delete]
    cases hget : u.urls.get (strings.ToUpper T key) with
    | none => exact hinv
    | some e => exact inv_delete u _ hinv

theorem inv_runCalls (rtPrefix : String) (T : UnicodeTables) (calls : List Call) :
    ∀ (u : URLs) (heap : Heap), u.Inv → (runCalls rtPrefix T u heap calls).1.Inv := by
  induction calls with
  | nil => intro u heap h; exact h
  | cons c cs ih =>
    intro u heap h
    exact ih _ _ (inv_exec rtPrefix T u heap c h)

/-- Under the representation invariant the order sequence is as long as the map. -/
theorem inv_length (u : URLs) (hinv : u.Inv) : u.order.length = u.Len := by
  obtain ⟨hkeys, hord, hmem⟩ := hinv
  have hperm : u.order.Perm (u.urls.map Prod.fst) := by
    rw [List.perm_ext_iff_of_nodup hord hkeys]
    intro k
    rw [hmem k, Ne, GoMap.get_eq_none_iff, not_not]
  simpa [URLs.Len, GoMap.len] using hperm.length_eq

theorem InOrder_eq (u : URLs) (reverse : List Bool) :
    u.InOrder reverse = (u.ForEach reverse).map Prod.snd := by
  unfold URLs.InOrder URLs.ForEach
  split <;> simp [List.map_map, Function.comp_def]

/-- C1. After every sequence of `Set`, `SetRaw` and `Delete` calls on a registry made by
`NewURLs`, failed calls included, the order sequence is as long as the map, holds no key
twice and holds only keys bound in the map, so that `InOrder`, forward or reversed,
yields no nil entry. -/
theorem registry_invariant_after_calls (rtPrefix : String) (T : UnicodeTables) (heap : Heap)
    (calls : List Call) (reverse : List Bool) :
    (runCalls rtPrefix T NewURLs heap calls).1.order.length
        = (runCalls rtPrefix T NewURLs heap calls).1.Len
      ∧ (runCalls rtPrefix T NewURLs heap calls).1.order.Nodup
      ∧ (∀ k ∈ (runCalls rtPrefix T NewURLs heap calls).1.order,
          (runCalls rtPrefix T NewURLs heap calls).1.urls.get k ≠ none)
      ∧ (∀ e ∈ (runCalls rtPrefix T NewURLs heap calls).1.InOrder reverse, e ≠ none)
      ∧ ((runCalls rtPrefix T NewURLs heap calls).1.InOrder reverse).length
          = (runCalls rtPrefix T NewURLs heap calls).1.Len := by
  have hinv := inv_runCalls rtPrefix T calls NewURLs heap inv_NewURLs
  have hlen := inv_length _ hinv
  obtain ⟨_, hord, hmem⟩ := hinv
  refine ⟨hlen, hord, fun k hk => (hmem k).1 hk, ?_, ?_⟩
  · intro e he
    unfold URLs.InOrder at he
    split at he
    · obtain ⟨k, hk, rfl⟩ := List.mem_map.1 he
      exact (hmem k).1 (List.mem_reverse.1 hk)
    · obtain ⟨k, hk, rfl⟩ := List.mem_map.1 he
      exact (hmem k).1 hk
  · rw [← hlen]
    unfold URLs.InOrder
    split <;> simp

/-- C2. When the upper-cased key is already bound, `Set` panics with the duplicate-key
message and leaves the map and the order sequence as they were. -/
theorem set_duplicate_fails (rtPrefix : String) (T : UnicodeTables) (u : URLs) (heap : Heap)
    (key : String) (value : Ptr) (external : List Bool)
    (hreg : u.urls.get (strings.ToUpper T key) ≠ none) :
    (u.Set rtPrefix T heap key value external).panicked
        = some ("URL already exists: " ++ strings.ToUpper T key)
      ∧ (u.Set rtPrefix T heap key value external).u = u
      ∧ (u.Set rtPrefix T heap key value external).u.urls = u.urls
      ∧ (u.Set rtPrefix T heap key value external).u.order = u.order := by
  cases hget : u.urls.get (strings.ToUpper T key) with
  | none => exact absurd hget hreg
  | some e => simp [URLs.Set, hget]

theorem set_duplicate_fails_witness :
    sampleURLs.urls.get (strings.ToUpper asciiTables "Home") ≠ none
      ∧ ((sampleURLs.Set "/#" asciiTables blankHeap "Home" 3 []).panicked
          = some ("URL already exists: " ++ strings.ToUpper asciiTables "Home")
        ∧ (sampleURLs.Set "/#" asciiTables blankHeap "Home" 3 []).u = sampleURLs
        ∧ (sampleURLs.Set "/#" asciiTables blankHeap "Home" 3 []).u.urls = sampleURLs.urls
        ∧ (sampleURLs.Set "/#" asciiTables blankHeap "Home" 3 []).u.order = sampleURLs.order) :=
  ⟨by decide, set_duplicate_fails "/#" asciiTables sampleURLs blankHeap "Home" 3 [] (by decide)⟩

theorem inv_sampleURLs : sampleURLs.Inv := by
  refine ⟨by decide, by decide, ?_⟩
  intro k
  simp only [sampleURLs, GoMap.get, List.mem_cons, List.mem_singleton, List.not_mem_nil,
    or_false]
  by_cases h1 : "ABOUT" = k
  · subst h1; simp
  · by_cases h2 : "HOME" = k
    · subst h2; simp
    · simp [h1, h2, Ne.symm h1, Ne.symm h2]

/-- C3. On a registry satisfying the representation invariant, `Delete` panics with the
not-found message exactly when the upper-cased key is unbound, and then changes neither
registry nor DOM; otherwise it unbinds the key, cuts it out of the order sequence,
removes the bound element from the DOM, and leaves every other key bound as before and
the remaining order sequence in its previous relative order. -/
theorem delete_contract (T : UnicodeTables) (u : URLs) (heap : Heap) (key : String)
    (hinv : u.Inv) :
    ((u.Delete T heap key).panicked = some ("URL does not exist: " ++ strings.ToUpper T key)
        ↔ u.urls.get (strings.ToUpper T key) = none)
      ∧ (u.urls.get (strings.ToUpper T key) = none →
          (u.Delete T heap key).u = u ∧ (u.Delete T heap key).heap.removed = heap.removed)
      ∧ (∀ element, u.urls.get (strings.ToUpper T key) = some element →
          (u.Delete T heap key).panicked = none
          ∧ (u.Delete T heap key).u.urls.get (strings.ToUpper T key) = none
          ∧ strings.ToUpper T key ∉ (u.Delete T heap key).u.order
          ∧ (u.Delete T heap key).heap.removed = heap.removed ++ [element]
          ∧ (∀ k, k ≠ strings.ToUpper T key →
              (u.Delete T heap key).u.urls.get k = u.urls.get k)
          ∧ (u.Delete T heap key).u.order
              = u.order.filter (fun k => decide (k ≠ strings.ToUpper T key))
          ∧ (u.Delete T heap key).u.order.length = (u.Delete T heap key).u.Len) := by
  cases hget : u.urls.get (strings.ToUpper T key) with
  | none => simp [URLs.Delete, hget]
  | some e =>
    have hinv2 := inv_delete u (strings.ToUpper T key) hinv
    have hlen := inv_length _ hinv2
    obtain ⟨_, hord, _⟩ := hinv
    refine ⟨by simp [URLs.Delete, hget], by simp, ?_⟩
    intro element hel
    cases hel
    refine ⟨by simp [URLs.Delete, hget], ?_, ?_, by simp [URLs.Delete, hget], ?_, ?_, ?_⟩
    · simp [URLs.Delete, hget, GoMap.get_delete]
    · simp [URLs.Delete, hget, removeFirst_eq_erase, hord.mem_erase_iff]
    · intro k hk
      simp [URLs.Delete, hget, GoMap.get_delete, hk]
    · simp only [URLs.Delete, hget, removeFirst_eq_erase, hord.erase_eq_filter]
      congr 1
      funext k
      by_cases hk : k = strings.ToUpper T key <;> simp [hk, bne]
    · simpa [URLs.Delete, hget] using hlen

theorem delete_contract_witness :
    sampleURLs.Inv
      ∧ sampleURLs.urls.get (strings.ToUpper asciiTables "home") = some 1
      ∧ (sampleURLs.Delete asciiTables blankHeap "home").panicked = none
      ∧ (sampleURLs.Delete asciiTables blankHeap "home").u.urls.get
          (strings.ToUpper asciiTables "home") = none
      ∧ strings.ToUpper asciiTables "home"
          ∉ (sampleURLs.Delete asciiTables blankHeap "home").u.order
      ∧ (sampleURLs.Delete asciiTables blankHeap "home").heap.removed
          = blankHeap.removed ++ [1]
      ∧ (∀ k, k ≠ strings.ToUpper asciiTables "home" →
          (sampleURLs.Delete asciiTables blankHeap "home").u.urls.get k
            = sampleURLs.urls.get k)
      ∧ (sampleURLs.Delete asciiTables blankHeap "home").u.order
          = sampleURLs.order.filter
              (fun k => decide (k ≠ strings.ToUpper asciiTables "home"))
      ∧ (sampleURLs.Delete asciiTables blankHeap "home").u.order.length
          = (sampleURLs.Delete asciiTables blankHeap "home").u.Len :=
  ⟨inv_sampleURLs, by decide,
    (delete_contract asciiTables sampleURLs blankHeap "home" inv_sampleURLs).2.2 1
      (by decide)⟩

theorem sim_insert (u : URLs) (entries : List (String × Ptr)) (K : String) (v : Ptr)
    (hsim : Sim u entries) (hK : u.urls.get K = none) :
    Sim { order := u.order ++ [K], urls := u.urls.set K v } (entries ++ [(K, v)]) := by
  obtain ⟨hinv, hord, hget⟩ := hsim
  refine ⟨inv_insert u K v hinv hK, by simp [hord], ?_⟩
  intro kv hkv
  rcases List.mem_append.1 hkv with h | h
  · have hne : kv.1 ≠ K := by
      intro e
      rw [← e, hget kv h] at hK
      cases hK
    simp [GoMap.get_set, hne, hget kv h]
  · rw [List.mem_singleton] at h
    subst h
    simp [GoMap.get_set]

theorem sim_not_mem (u : URLs) (entries : List (String × Ptr)) (K : String)
    (hsim : Sim u entries) : K ∈ entries.map Prod.fst ↔ u.urls.get K ≠ none := by
  obtain ⟨hinv, hord, _⟩ := hsim
  rw [← hord]
  exact hinv.2.2 K

theorem sim_delete (u : URLs) (entries : List (String × Ptr)) (K : String)
    (hsim : Sim u entries) :
    Sim { order := removeFirst K u.order, urls := u.urls.delete K }
      (entries.filter (fun kv => decide (kv.1 ≠ K))) := by
  obtain ⟨hinv, hord, hget⟩ := hsim
  refine ⟨inv_delete u K hinv, ?_, ?_⟩
  · have hfm : List.map Prod.fst (entries.filter (fun kv => decide (kv.1 ≠ K)))
        = (entries.map Prod.fst).filter (fun k => decide (k ≠ K)) := by
      rw [List.filter_map]; rfl
    rw [hfm, ← hord]
    simp only [removeFirst_eq_erase, hinv.2.1.erase_eq_filter]
    congr 1
    funext k
    by_cases hk : k = K <;> simp [hk, bne]
  · intro kv hkv
    obtain ⟨hmem, hne⟩ := List.mem_filter.1 hkv
    have hne2 : kv.1 ≠ K := by simpa using hne
    simp [GoMap.get_delete, hne2, hget kv hmem]

theorem sim_exec (rtPrefix : String) (T : UnicodeTables) (u : URLs) (heap : Heap)
    (entries : List (String × Ptr)) (c : Call) (hsim : Sim u entries) :
    Sim (c.exec rtPrefix T u heap).u (specCall T entries c) := by
  have hmem := sim_not_mem u entries
  cases c with
  | Set key value external =>
    simp only [Call.exec, URLs.Set, specCall]
    cases hget : u.urls.get (strings.ToUpper T key) with
    | none =>
      have hno : strings.ToUpper T key ∉ entries.map Prod.fst := by
        rw [hmem _ hsim]; simp [hget]
      rw [if_neg hno]
      exact sim_insert u entries _ value hsim hget
    | some e =>
      have hyes : strings.ToUpper T key ∈ entries.map Prod.fst := by
        rw [hmem _ hsim]; simp [hget]
      rw [if_pos hyes]
      exact hsim
  | SetRaw key value =>
    simp only [Call.exec, URLs.SetRaw, specCall]
    cases hget : u.urls.get (strings.ToUpper T key) with
    | none =>
      have hno : strings.ToUpper T key ∉ entries.map Prod.fst := by
        rw [hmem _ hsim]; simp [hget]
      rw [if_neg hno]
      exact sim_insert u entries _ value hsim hget
    | some e =>
      have hyes : strings.ToUpper T key ∈ entries.map Prod.fst := by
        rw [hmem _ hsim]; simp [hget]
      rw [if_pos hyes]
      exact hsim
  | Delete key =>
    simp only [Call.exec, URLs.Delete, specCall]
    cases hget : u.urls.get (strings.ToUpper T key) with
    | none =>
      have hno : strings.ToUpper T key ∉ entries.map Prod.fst := by
        rw [hmem _ hsim]; simp [hget]
      have hfilter : entries.filter (fun kv => decide (kv.1 ≠ strings.ToUpper T key))
          = entries := by
        rw [List.filter_eq_self]
        intro kv hkv
        have : kv.1 ≠ strings.ToUpper T key :=
          fun e => hno (e ▸ List.mem_map_of_mem Prod.fst hkv)
        simpa using this
      rw [hfilter]
      exact hsim
    | some e => exact sim_delete u entries _ hsim

theorem sim_runCalls (rtPrefix : String) (T : UnicodeTables) (calls : List Call) :
    ∀ (u : URLs) (heap : Heap) (entries : List (String × Ptr)), Sim u entries →
      Sim (runCalls rtPrefix T u heap calls).1 (calls.foldl (specCall T) entries) := by
  induction calls with
  | nil => intro u heap entries h; exact h
  | cons c cs ih =>
    intro u heap entries h
    exact ih _ _ _ (sim_exec rtPrefix T u heap entries c h)

theorem sim_ForEach (u : URLs) (entries : List (String × Ptr)) (hsim : Sim u entries) :
    u.order.map (fun k => (k, u.urls.get k)) = entries.map (fun kv => (kv.1, some kv.2)) := by
  obtain ⟨_, hord, hget⟩ := hsim
  rw [hord, List.map_map]
  apply List.map_congr_left
  intro kv hkv
  simp [hget kv hkv]

/-- C4. After every sequence of calls on a new registry, `ForEach` visits the entries of
the specification's insertion-ordered list, oldest insertion first, and in exactly the
reverse order when asked to; `InOrder` returns the elements of those entries in the
same forward or reverse order. -/
theorem iteration_in_insertion_order (rtPrefix : String) (T : UnicodeTables) (heap : Heap)
    (calls : List Call) :
    (runCalls rtPrefix T NewURLs heap calls).1.ForEach []
        = (specEntries T calls).map (fun kv => (kv.1, some kv.2))
      ∧ (runCalls rtPrefix T NewURLs heap calls).1.ForEach [true]
        = ((specEntries T calls).map (fun kv => (kv.1, some kv.2))).reverse
      ∧ (runCalls rtPrefix T NewURLs heap calls).1.InOrder []
        = (specEntries T calls).map (fun kv => some kv.2)
      ∧ (runCalls rtPrefix T NewURLs heap calls).1.InOrder [true]
        = ((specEntries T calls).map (fun kv => some kv.2)).reverse
      ∧ (runCalls rtPrefix T NewURLs heap calls).1.InOrder [false]
        = (specEntries T calls).map (fun kv => some kv.2)
      ∧ (runCalls rtPrefix T NewURLs heap calls).1.ForEach [false]
        = (specEntries T calls).map (fun kv => (kv.1, some kv.2)) := by
  have hsim : Sim (runCalls rtPrefix T NewURLs heap calls).1 (specEntries T calls) :=
    sim_runCalls rtPrefix T calls NewURLs heap []
      ⟨inv_NewURLs, by simp [NewURLs], by simp⟩
  have hfe := sim_ForEach _ _ hsim
  have hio : (runCalls rtPrefix T NewURLs heap calls).1.order.map
      (fun k => (runCalls rtPrefix T NewURLs heap calls).1.urls.get k)
      = (specEntries T calls).map (fun kv => some kv.2) := by
    have := congrArg (List.map Prod.snd) hfe
    simpa [List.map_map, Function.comp_def] using this
  refine ⟨?_, ?_, ?_, ?_, ?_, ?_⟩
  · simpa [URLs.ForEach] using hfe
  · simp only [URLs.ForEach, List.length_singleton, List.head?_cons, Nat.lt_one_iff,
      and_self, if_true, List.map_reverse, hfe]
  · simpa [URLs.InOrder] using hio
  · simp [URLs.InOrder, List.map_reverse, hio]
  · simpa [URLs.InOrder] using hio
  · simpa [URLs.ForEach] using hfe

end router

/-! ## Properties of slug generation -/

namespace unicode

theorem toNat_ofNat_small (m : Nat) (h : m < 0xd800) : (Char.ofNat m).toNat = m := by
  have hv : m.isValidChar := Or.inl h
  unfold Char.ofNat
  rw [dif_pos hv]
  simp [Char.ofNatAux, Char.toNat, UInt32.toNat]

/-- On ASCII, `ToLower` is idempotent. -/
theorem ToLower_ascii_idem (T : UnicodeTables) (r : Char) (h : r.toNat ≤ MaxASCII) :
    ToLower T (ToLower T r) = ToLower T r := by
  have h127 : r.toNat ≤ 127 := h
  by_cases hup : 'A'.toNat ≤ r.toNat ∧ r.toNat ≤ 'Z'.toNat
  · have hA : 'A'.toNat = 65 := by decide
    have hZ : 'Z'.toNat = 90 := by decide
    have ha : 'a'.toNat = 97 := by decide
    rw [hA, hZ] at hup
    have hr : ToLower T r = Char.ofNat (r.toNat + 32) := by
      simp [ToLower, MaxASCII, h127, hA, hZ, ha, hup]
    have hn : (Char.ofNat (r.toNat + 32)).toNat = r.toNat + 32 :=
      toNat_ofNat_small _ (by omega)
    rw [hr]
    have hsmall : r.toNat + 32 ≤ 127 := by omega
    have hnot : ¬ (65 ≤ r.toNat + 32 ∧ r.toNat + 32 ≤ 90) := by omega
    simp only [ToLower, MaxASCII, hn, hA, hZ]
    rw [if_pos hsmall, if_neg hnot]
  · have hr : ToLower T r = r := by
      unfold ToLower
      rw [if_pos h, if_neg hup]
    rw [hr, hr]

theorem ToLower_hyphen (T : UnicodeTables) : ToLower T '-' = '-' := by
  rfl

theorem hyphen_not_alnum (T : UnicodeTables) :
    (IsLetter T '-' || IsDigit T '-') = false := by
  rfl

end unicode

namespace scroll

theorem foldl_slugStep (T : UnicodeTables) (l : List Char) :
    ∀ (acc : List Char) (b : Bool),
      (l.foldl (slugStep T) (acc, b)).1 = acc ++ slugRunes T l b := by
  induction l with
  | nil => intro acc b; simp [slugRunes]
  | cons r rs ih =>
    intro acc b
    rw [List.foldl_cons]
    by_cases hr : (unicode.IsLetter T r || unicode.IsDigit T r) = true
    · simp only [slugStep, slugRunes, hr, if_true]
      rw [ih]; simp
    · cases b
      · simp only [slugStep, slugRunes, hr, if_false]
        rw [ih]; simp
      · simp only [slugStep, slugRunes, hr, if_false, if_true]
        rw [ih]; simp

theorem makeSlug_data (T : UnicodeTables) (s : String) :
    (makeSlug T s).data = slugRunes T (s.data.map (unicode.ToLower T)) false := by
  simp [makeSlug, strings.ToLower, foldl_slugStep]

/-- Writing the runes of a slug again, entered with the same flag, gives the same runes. -/
theorem slugRunes_slugRunes (T : UnicodeTables) (l : List Char) :
    ∀ b : Bool, slugRunes T (slugRunes T l b) b = slugRunes T l b := by
  induction l with
  | nil => intro b; simp [slugRunes]
  | cons r rs ih =>
    intro b
    by_cases hr : (unicode.IsLetter T r || unicode.IsDigit T r) = true
    · simp only [slugRunes, hr, if_true]
      rw [ih true]
    · cases b
      · simp only [slugRunes, hr, if_false]
        exact ih false
      · simp only [slugRunes, hr, if_false, if_true]
        have hh := unicode.hyphen_not_alnum T
        simp only [slugRunes, hh, if_true]
        rw [ih false]
        simp

/-- Every rune written is a hyphen or a letter or digit of the input. -/
theorem mem_slugRunes (T : UnicodeTables) (l : List Char) :
    ∀ (b : Bool) (c : Char), c ∈ slugRunes T l b →
      c = '-' ∨ (c ∈ l ∧ (unicode.IsLetter T c || unicode.IsDigit T c) = true) := by
  induction l with
  | nil => intro b c h; simp [slugRunes] at h
  | cons r rs ih =>
    intro b c h
    by_cases hr : (unicode.IsLetter T r || unicode.IsDigit T r) = true
    · simp only [slugRunes, hr, if_true, List.mem_cons] at h
      rcases h with h | h
      · subst h; exact Or.inr ⟨List.mem_cons_self _ _, hr⟩
      · rcases ih true c h with h1 | ⟨h1, h2⟩
        · exact Or.inl h1
        · exact Or.inr ⟨List.mem_cons_of_mem _ h1, h2⟩
    · cases b
      · simp only [slugRunes, hr, if_false] at h
        rcases ih false c h with h1 | ⟨h1, h2⟩
        · exact Or.inl h1
        · exact Or.inr ⟨List.mem_cons_of_mem _ h1, h2⟩
      · have hr2 : (unicode.IsLetter T r || unicode.IsDigit T r) = false := by
          simpa using hr
        simp only [slugRunes, hr2, Bool.false_eq_true, if_false, if_true, List.mem_cons] at h
        rcases h with h3 | h3
        · exact Or.inl h3
        · rcases ih false c h3 with h1 | ⟨h1, h2⟩
          · exact Or.inl h1
          · exact Or.inr ⟨List.mem_cons_of_mem _ h1, h2⟩

/-- C5. Slug generation is idempotent, for every input string, when the lower-case
table of the standard library is stable on its letter and digit images. -/
theorem makeSlug_idempotent (T : UnicodeTables) (hT : LowerStable T) (x : String) :
    makeSlug T (makeSlug T x) = makeSlug T x := by
  apply String.ext
  rw [makeSlug_data T (makeSlug T x), makeSlug_data T x]
  have hmap : (slugRunes T (x.data.map (unicode.ToLower T)) false).map (unicode.ToLower T)
      = slugRunes T (x.data.map (unicode.ToLower T)) false := by
    conv_rhs => rw [← List.map_id (slugRunes T (x.data.map (unicode.ToLower T)) false)]
    apply List.map_congr_left
    intro c hc
    rcases mem_slugRunes T _ false c hc with h | ⟨hmem, halnum⟩
    · subst h; exact unicode.ToLower_hyphen T
    · obtain ⟨r, _, rfl⟩ := List.mem_map.1 hmem
      by_cases hr : r.toNat ≤ unicode.MaxASCII
      · exact unicode.ToLower_ascii_idem T r hr
      · have hlow : unicode.ToLower T r = T.toLower r := by
          unfold unicode.ToLower; rw [if_neg hr]
        rw [hlow] at halnum ⊢
        exact hT r (Nat.lt_of_not_le hr) halnum
  rw [hmap]
  exact slugRunes_slugRunes T _ false

theorem lowerStable_asciiTables : LowerStable asciiTables := by
  intro r hr _
  have hnot : ¬ r.toNat ≤ unicode.MaxASCII := Nat.not_le_of_lt hr
  simp [asciiTables, unicode.ToLower, hnot]

theorem makeSlug_idempotent_witness :
    LowerStable asciiTables
      ∧ makeSlug asciiTables (makeSlug asciiTables "My Page!! Title")
          = makeSlug asciiTables "My Page!! Title" :=
  ⟨lowerStable_asciiTables,
    makeSlug_idempotent asciiTables lowerStable_asciiTables "My Page!! Title"⟩

/-- The loop entered with `lastLetter` false does not start its output with a hyphen. -/
theorem slugRunes_head (T : UnicodeTables) (l : List Char) :
    (slugRunes T l false).head? ≠ some '-' := by
  induction l with
  | nil => simp [slugRunes]
  | cons r rs ih =>
    by_cases hr : (unicode.IsLetter T r || unicode.IsDigit T r) = true
    · simp only [slugRunes, hr, if_true, List.head?_cons, ne_eq, Option.some.injEq]
      intro e
      rw [e, unicode.hyphen_not_alnum T] at hr
      cases hr
    · simpa [slugRunes, hr] using ih

/-- The loop never writes two hyphens in a row. -/
theorem slugRunes_chain (T : UnicodeTables) (l : List Char) :
    ∀ b : Bool, List.Chain' (fun a c => ¬ (a = '-' ∧ c = '-')) (slugRunes T l b) := by
  induction l with
  | nil => intro b; simp [slugRunes]
  | cons r rs ih =>
    intro b
    by_cases hr : (unicode.IsLetter T r || unicode.IsDigit T r) = true
    · simp only [slugRunes, hr, if_true]
      refine List.Chain'.cons' (ih true) ?_
      intro c _ hc
      have hne : r ≠ '-' := by
        intro e
        rw [e, unicode.hyphen_not_alnum T] at hr
        cases hr
      exact hne hc.1
    · have hr2 : (unicode.IsLetter T r || unicode.IsDigit T r) = false := by
        simpa using hr
      cases b
      · simpa [slugRunes, hr2] using ih false
      · simp only [slugRunes, hr2, Bool.false_eq_true, if_false, if_true]
        refine List.Chain'.cons' (ih false) ?_
        intro c hc hcc
        exact (slugRunes_head T rs) (by rw [hc, hcc.2])

/-- C6. For every input the slug starts with no hyphen and has no two adjacent
hyphens, and the specification's example gives `my-page-title`; but an input that ends
in a non-alphanumeric rune after a word gives a slug with a trailing hyphen, as `Hi!`
does. -/
theorem makeSlug_trailing_hyphen (T : UnicodeTables) (x : String) :
    (makeSlug T x).data.head? ≠ some '-'
      ∧ List.Chain' (fun a c => ¬ (a = '-' ∧ c = '-')) (makeSlug T x).data
      ∧ makeSlug T "My Page!! Title" = "my-page-title"
      ∧ makeSlug T "Hi!" = "hi-"
      ∧ (makeSlug T "Hi!").data.getLast? = some '-' := by
  refine ⟨?_, ?_, ?_, rfl, rfl⟩
  · rw [makeSlug_data]; exact slugRunes_head T _
  · rw [makeSlug_data]; exact slugRunes_chain T _ false
  · simp [makeSlug, strings.ToLower, slugStep, unicode.ToLower, unicode.IsLetter,
      unicode.IsDigit, unicode.MaxASCII, unicode.MaxLatin1]

end scroll

/-! ## Properties of the scroll-page controller -/

namespace scroll

theorem pageAt_isSome (pages : List Page) (i : Int) (h0 : 0 ≤ i)
    (h1 : i < (pages.length : Int)) : ∃ p, pageAt pages i = some p := by
  have hlt : i.toNat < pages.length := by omega
  exact ⟨pages[i.toNat], by simp [pageAt, h0, List.getElem?_eq_getElem hlt]⟩

theorem with_currentPage_self (s : Application) : { s with currentPage := s.currentPage } = s := by
  cases s; rfl

theorem movedIndex_in_range (s : Application) (p : PageDirection)
    (h0 : 0 ≤ s.currentPage) (h1 : s.currentPage < (s.pages.length : Int)) :
    0 ≤ s.movedIndex p ∧ s.movedIndex p < (s.pages.length : Int) := by
  unfold Application.movedIndex
  cases p <;> simp only [] <;> split_ifs <;> omega

/-- A call of `updatePage` that does not move the index has no effect. -/
theorem updatePage_of_movedIndex_eq (s : Application) (p : PageDirection)
    (h : s.movedIndex p = s.currentPage) : s.updatePage p = some (s, []) := by
  unfold Application.updatePage
  simp [h, with_currentPage_self]

/-- A call of `updatePage` that moves the index to a page whose container is rendered. -/
theorem updatePage_of_movedIndex_ne (s : Application) (p : PageDirection) (out inc : Page)
    (h : s.currentPage ≠ s.movedIndex p) (hout : pageAt s.pages s.currentPage = some out)
    (hinc : pageAt s.pages (s.movedIndex p) = some inc)
    (hdom : s.containerByIndex (s.movedIndex p) ≠ none) :
    s.updatePage p = some ({ s with currentPage := s.movedIndex p },
      fireOnHide out p
        ++ [Effect.setTitle inc.title, Effect.pushState ("#" ++ inc.hash),
            Effect.scrollIntoView (s.movedIndex p)]
        ++ fireOnShow inc p ++ fireOnPageChange s (s.movedIndex p)) := by
  have hsame : ({ s with currentPage := s.movedIndex p } : Application).containerByIndex
      (s.movedIndex p) = s.containerByIndex (s.movedIndex p) := rfl
  cases hc : s.containerByIndex (s.movedIndex p) with
  | none => exact absurd hc hdom
  | some c =>
    unfold Application.updatePage
    simp only [ne_eq, h, not_false_eq_true, if_true, hout, hinc, hsame, hc]

/-- A call of `updatePage` that moves the index to a page whose container is not
rendered panics. -/
theorem updatePage_unrendered (s : Application) (p : PageDirection)
    (h : s.currentPage ≠ s.movedIndex p)
    (hdom : s.containerByIndex (s.movedIndex p) = none) : s.updatePage p = none := by
  have hsame : ({ s with currentPage := s.movedIndex p } : Application).containerByIndex
      (s.movedIndex p) = s.containerByIndex (s.movedIndex p) := rfl
  unfold Application.updatePage
  simp only [ne_eq, h, not_false_eq_true, if_true, hsame, hdom]
  cases pageAt s.pages s.currentPage with
  | none => rfl
  | some out =>
    cases pageAt s.pages (s.movedIndex p) with
    | none => rfl
    | some inc => rfl

/-- What a successful call of `updatePage` leaves: the pages, and the moved index. -/
theorem updatePage_some (s s1 : Application) (p : PageDirection) (effects : List Effect)
    (h : s.updatePage p = some (s1, effects)) :
    s1 = { s with currentPage := s.movedIndex p } := by
  unfold Application.updatePage at h
  by_cases hmove : s.currentPage = s.movedIndex p
  · simp only [ne_eq, hmove, not_true_eq_false, if_false, Option.some.injEq,
      Prod.mk.injEq] at h
    exact h.1.symm
  · simp only [ne_eq, hmove, not_false_eq_true, if_true] at h
    split at h
    · cases h
    · split at h
      · cases h
      · split at h
        · cases h
        · simp only [Option.some.injEq, Prod.mk.injEq] at h
          exact h.1.symm

/-- The two pages a moving call of `updatePage` reads exist when the index is in range. -/
theorem updatePage_pages (s : Application) (p : PageDirection)
    (h0 : 0 ≤ s.currentPage) (h1 : s.currentPage < (s.pages.length : Int)) :
    ∃ out inc : Page,
      pageAt s.pages s.currentPage = some out ∧ pageAt s.pages (s.movedIndex p) = some inc := by
  obtain ⟨out, hout⟩ := pageAt_isSome s.pages s.currentPage h0 h1
  have hrange := movedIndex_in_range s p h0 h1
  obtain ⟨inc, hinc⟩ := pageAt_isSome s.pages (s.movedIndex p) hrange.1 hrange.2
  exact ⟨out, inc, hout, hinc⟩

theorem nextDirection_eq (s : Application) (hax : ValidAxis s.Options) :
    s.NextPage = s.updatePage (forwardDirection s.Options.ScrollAxis)
      ∧ (forwardDirection s.Options.ScrollAxis = .Right
          ∨ forwardDirection s.Options.ScrollAxis = .Down) := by
  rcases hax with h | h <;>
    simp [Application.NextPage, forwardDirection, h, ScrollAxisX, ScrollAxisY]

theorem previousDirection_eq (s : Application) (hax : ValidAxis s.Options) :
    s.PreviousPage = s.updatePage (backwardDirection s.Options.ScrollAxis)
      ∧ (backwardDirection s.Options.ScrollAxis = .Left
          ∨ backwardDirection s.Options.ScrollAxis = .Up) := by
  rcases hax with h | h <;>
    simp [Application.PreviousPage, backwardDirection, h, ScrollAxisX, ScrollAxisY]

/-- C7. Under the clamp policy (`ScrollThrough` false), with at least one page and a
valid axis, `PreviousPage` at index 0 and `NextPage` at the last index return the
controller unchanged and have no effect at all: no callback, no title change, no
history push, no scrolling, no `onPageChange`. -/
theorem clamp_edges_are_noops (s : Application) (hclamp : s.Options.ScrollThrough = false)
    (hN : 1 ≤ s.pages.length) (hax : ValidAxis s.Options) :
    (s.currentPage = 0 → s.PreviousPage = some (s, []))
      ∧ (s.currentPage = (s.pages.length : Int) - 1 → s.NextPage = some (s, [])) := by
  constructor
  · intro hcur
    rw [(previousDirection_eq s hax).1]
    apply updatePage_of_movedIndex_eq
    rcases (previousDirection_eq s hax).2 with h | h <;>
      · rw [h]; unfold Application.movedIndex
        simp only [hclamp, hcur, Bool.false_eq_true, if_false]
        split_ifs <;> omega
  · intro hcur
    rw [(nextDirection_eq s hax).1]
    apply updatePage_of_movedIndex_eq
    rcases (nextDirection_eq s hax).2 with h | h <;>
      · rw [h]; unfold Application.movedIndex
        simp only [hclamp, hcur, Bool.false_eq_true, if_false]
        split_ifs <;> omega

theorem clamp_edges_are_noops_witness :
    (sampleApp ScrollAxisY false).Options.ScrollThrough = false
      ∧ 1 ≤ (sampleApp ScrollAxisY false).pages.length
      ∧ ValidAxis (sampleApp ScrollAxisY false).Options
      ∧ (sampleApp ScrollAxisY false).currentPage = 0
      ∧ (sampleApp ScrollAxisY false).PreviousPage = some (sampleApp ScrollAxisY false, []) :=
  ⟨rfl, by decide, Or.inr rfl, rfl,
    (clamp_edges_are_noops (sampleApp ScrollAxisY false) rfl (by decide) (Or.inr rfl)).1 rfl⟩

/-- C8, a case outside the claim as stated: the pages `Home`, `About`, `Contact` under
the wrap policy on the Y axis, before `Run` has rendered any page section. At index 0
`PreviousPage` panics in `containerByIndex`, where the claim says that it moves to index
2 and fires `OnShow`. -/
theorem wrap_unrendered_counterexample :
    (sampleApp ScrollAxisY true).Options.ScrollThrough = true
      ∧ 2 ≤ (sampleApp ScrollAxisY true).pages.length
      ∧ ValidAxis (sampleApp ScrollAxisY true).Options
      ∧ (sampleApp ScrollAxisY true).currentPage = 0
      ∧ (sampleApp ScrollAxisY true).containerByIndex 2 = none
      ∧ (sampleApp ScrollAxisY true).PreviousPage = none
      ∧ (sampleApp ScrollAxisY true).PreviousPage
          ≠ some ({ sampleApp ScrollAxisY true with currentPage := 2 },
              [Effect.OnHide homePage .Up, Effect.setTitle "Contact",
               Effect.pushState "#contact", Effect.scrollIntoView 2,
               Effect.OnShow contactPage .Up, Effect.onPageChange 2]) := by
  refine ⟨rfl, by decide, Or.inr rfl, rfl, by decide, by decide, by decide⟩

/-- C8, amended. Under the wrap policy (`ScrollThrough` true), with at least two pages,
a valid axis and the container of the page moved to rendered below the root node (as
`Run` renders one for every page): `PreviousPage` at index 0 moves to the last index
and `NextPage` at the last index moves to index 0; the outgoing page's `OnHide` and the
incoming page's `OnShow`, where set, are both fired with the direction of the call
(`Up` or `Left` for `PreviousPage`, `Down` or `Right` for `NextPage`). -/
theorem wrap_edges_transition (s : Application) (hwrap : s.Options.ScrollThrough = true)
    (hN : 2 ≤ s.pages.length) (hax : ValidAxis s.Options) :
    (s.currentPage = 0 → s.containerByIndex ((s.pages.length : Int) - 1) ≠ none →
        ∃ out inc : Page,
          pageAt s.pages 0 = some out
          ∧ pageAt s.pages ((s.pages.length : Int) - 1) = some inc
          ∧ s.PreviousPage = some ({ s with currentPage := (s.pages.length : Int) - 1 },
              fireOnHide out (backwardDirection s.Options.ScrollAxis)
                ++ [Effect.setTitle inc.title, Effect.pushState ("#" ++ inc.hash),
                    Effect.scrollIntoView ((s.pages.length : Int) - 1)]
                ++ fireOnShow inc (backwardDirection s.Options.ScrollAxis)
                ++ fireOnPageChange s ((s.pages.length : Int) - 1))
          ∧ (out.OnHide = true →
              fireOnHide out (backwardDirection s.Options.ScrollAxis)
                = [Effect.OnHide out (backwardDirection s.Options.ScrollAxis)])
          ∧ (inc.OnShow = true →
              fireOnShow inc (backwardDirection s.Options.ScrollAxis)
                = [Effect.OnShow inc (backwardDirection s.Options.ScrollAxis)]))
      ∧ (s.currentPage = (s.pages.length : Int) - 1 → s.containerByIndex 0 ≠ none →
        ∃ out inc : Page,
          pageAt s.pages ((s.pages.length : Int) - 1) = some out
          ∧ pageAt s.pages 0 = some inc
          ∧ s.NextPage = some ({ s with currentPage := 0 },
              fireOnHide out (forwardDirection s.Options.ScrollAxis)
                ++ [Effect.setTitle inc.title, Effect.pushState ("#" ++ inc.hash),
                    Effect.scrollIntoView 0]
                ++ fireOnShow inc (forwardDirection s.Options.ScrollAxis)
                ++ fireOnPageChange s 0)
          ∧ (out.OnHide = true →
              fireOnHide out (forwardDirection s.Options.ScrollAxis)
                = [Effect.OnHide out (forwardDirection s.Options.ScrollAxis)])
          ∧ (inc.OnShow = true →
              fireOnShow inc (forwardDirection s.Options.ScrollAxis)
                = [Effect.OnShow inc (forwardDirection s.Options.ScrollAxis)]))
      ∧ backwardDirection ScrollAxisY = .Up ∧ backwardDirection ScrollAxisX = .Left
      ∧ forwardDirection ScrollAxisY = .Down ∧ forwardDirection ScrollAxisX = .Right := by
  have hlen : (2 : Int) ≤ (s.pages.length : Int) := by exact_mod_cast hN
  obtain ⟨first, hfirst⟩ := pageAt_isSome s.pages 0 (le_refl 0) (by omega)
  obtain ⟨last, hlast⟩ :=
    pageAt_isSome s.pages ((s.pages.length : Int) - 1) (by omega) (by omega)
  refine ⟨?_, ?_, by decide, by decide, by decide, by decide⟩
  · intro hcur hdom
    have hmoved : s.movedIndex (backwardDirection s.Options.ScrollAxis)
        = (s.pages.length : Int) - 1 := by
      rcases (previousDirection_eq s hax).2 with h | h <;>
        · rw [h]; unfold Application.movedIndex
          simp only [hwrap, hcur, if_true]
          split_ifs <;> omega
    refine ⟨first, last, hfirst, hlast, ?_, fun h => by simp [fireOnHide, h],
      fun h => by simp [fireOnShow, h]⟩
    rw [(previousDirection_eq s hax).1]
    have h := updatePage_of_movedIndex_ne s (backwardDirection s.Options.ScrollAxis)
      first last (by rw [hmoved, hcur]; omega) (by rw [hcur]; exact hfirst)
      (by rw [hmoved]; exact hlast) (by rw [hmoved]; exact hdom)
    rw [hmoved] at h
    exact h
  · intro hcur hdom
    have hmoved : s.movedIndex (forwardDirection s.Options.ScrollAxis) = 0 := by
      rcases (nextDirection_eq s hax).2 with h | h <;>
        · rw [h]; unfold Application.movedIndex
          simp only [hwrap, hcur, if_true]
          split_ifs <;> omega
    refine ⟨last, first, hlast, hfirst, ?_, fun h => by simp [fireOnHide, h],
      fun h => by simp [fireOnShow, h]⟩
    rw [(nextDirection_eq s hax).1]
    have h := updatePage_of_movedIndex_ne s (forwardDirection s.Options.ScrollAxis)
      last first (by rw [hmoved, hcur]; omega) (by rw [hcur]; exact hlast)
      (by rw [hmoved]; exact hfirst) (by rw [hmoved]; exact hdom)
    rw [hmoved] at h
    exact h

theorem wrap_edges_transition_witness :
    (sampleApp ScrollAxisY true).Run "" = some (runningApp ScrollAxisY true, [])
      ∧ (runningApp ScrollAxisY true).Options.ScrollThrough = true
      ∧ 2 ≤ (runningApp ScrollAxisY true).pages.length
      ∧ ValidAxis (runningApp ScrollAxisY true).Options
      ∧ (runningApp ScrollAxisY true).currentPage = 0
      ∧ (runningApp ScrollAxisY true).containerByIndex
          (((runningApp ScrollAxisY true).pages.length : Int) - 1) ≠ none
      ∧ (runningApp ScrollAxisY true).PreviousPage
          = some ({ runningApp ScrollAxisY true with currentPage := 2 },
              [Effect.OnHide homePage .Up, Effect.setTitle "Contact",
               Effect.pushState "#contact", Effect.scrollIntoView 2,
               Effect.OnShow contactPage .Up, Effect.onPageChange 2]) := by
  refine ⟨by decide, rfl, by decide, Or.inr rfl, rfl, by decide, ?_⟩
  obtain ⟨out, inc, hout, hinc, hcall, _, _⟩ :=
    (wrap_edges_transition (runningApp ScrollAxisY true) rfl (by decide) (Or.inr rfl)).1 rfl
      (by decide)
  have h1 : pageAt (runningApp ScrollAxisY true).pages 0 = some homePage := by decide
  have h2 : pageAt (runningApp ScrollAxisY true).pages
      (((runningApp ScrollAxisY true).pages.length : Int) - 1) = some contactPage := by decide
  rw [h1] at hout
  rw [h2] at hinc
  cases hout
  cases hinc
  rw [hcall]
  decide

/-- C9, a case outside the claim as stated: the pages `Home`, `About`, `Contact` on the
X axis, before `Run` has rendered any page section. `NextPage` at index 0 moves the
index (to 1) and then panics in `containerByIndex`, after the history push: the
container is not scrolled into view, and neither `OnShow` nor `onPageChange` is called. -/
theorem transition_unrendered_counterexample :
    0 ≤ (sampleApp ScrollAxisX false).currentPage
      ∧ (sampleApp ScrollAxisX false).currentPage
          < ((sampleApp ScrollAxisX false).pages.length : Int)
      ∧ (sampleApp ScrollAxisX false).movedIndex .Right = 1
      ∧ (sampleApp ScrollAxisX false).movedIndex .Right
          ≠ (sampleApp ScrollAxisX false).currentPage
      ∧ (sampleApp ScrollAxisX false).containerByIndex 1 = none
      ∧ (sampleApp ScrollAxisX false).NextPage = none
      ∧ (sampleApp ScrollAxisX false).NextPage
          ≠ some ({ sampleApp ScrollAxisX false with currentPage := 1 },
              [Effect.OnHide homePage .Right, Effect.setTitle "About",
               Effect.pushState "#about", Effect.scrollIntoView 1,
               Effect.OnShow aboutPage .Right, Effect.onPageChange 1]) := by
  refine ⟨by decide, by decide, by decide, by decide, by decide, by decide, by decide⟩

/-- C9, amended. On a controller with an index in range, for `NextPage` and for
`PreviousPage`: a call that moves the index to a page whose container is rendered below
the root node (as `Run` renders one for every page) returns and has exactly these
effects, in this order: the outgoing page's `OnHide` with the direction of the call
(where set), the document title, the history push of `#` and the incoming page's hash,
the scrolling of the incoming page's container into view, the incoming page's `OnShow`
with the same direction (where set), and `onPageChange` with the new index (where
registered); the index then is the new index. A call that does not move the index
has no effect, and a call that moves it to a page without rendered container panics. On
a valid axis the direction is `Right` or `Down` for `NextPage` and `Left` or `Up` for
`PreviousPage`. -/
theorem effective_transition_order (s : Application)
    (h0 : 0 ≤ s.currentPage) (h1 : s.currentPage < (s.pages.length : Int)) :
    (∃ (d : PageDirection) (new : Int) (out inc : Page),
        (ValidAxis s.Options → d = forwardDirection s.Options.ScrollAxis)
        ∧ pageAt s.pages s.currentPage = some out ∧ pageAt s.pages new = some inc
        ∧ (s.currentPage ≠ new → s.containerByIndex new ≠ none →
            s.NextPage = some ({ s with currentPage := new },
              fireOnHide out d
                ++ [Effect.setTitle inc.title, Effect.pushState ("#" ++ inc.hash),
                    Effect.scrollIntoView new]
                ++ fireOnShow inc d ++ fireOnPageChange s new))
        ∧ (s.currentPage = new → s.NextPage = some (s, []))
        ∧ (s.currentPage ≠ new → s.containerByIndex new = none → s.NextPage = none))
      ∧ (∃ (d : PageDirection) (new : Int) (out inc : Page),
        (ValidAxis s.Options → d = backwardDirection s.Options.ScrollAxis)
        ∧ pageAt s.pages s.currentPage = some out ∧ pageAt s.pages new = some inc
        ∧ (s.currentPage ≠ new → s.containerByIndex new ≠ none →
            s.PreviousPage = some ({ s with currentPage := new },
              fireOnHide out d
                ++ [Effect.setTitle inc.title, Effect.pushState ("#" ++ inc.hash),
                    Effect.scrollIntoView new]
                ++ fireOnShow inc d ++ fireOnPageChange s new))
        ∧ (s.currentPage = new → s.PreviousPage = some (s, []))
        ∧ (s.currentPage ≠ new → s.containerByIndex new = none → s.PreviousPage = none)) := by
  constructor
  · obtain ⟨out, inc, hout, hinc⟩ :=
      updatePage_pages s
        (if s.Options.ScrollAxis = ScrollAxisX then PageDirection.Right
         else if s.Options.ScrollAxis = ScrollAxisY then PageDirection.Down
         else PageDirection.Initial) h0 h1
    refine ⟨_, _, out, inc, ?_, hout, hinc,
      fun hne hdom => updatePage_of_movedIndex_ne s _ out inc hne hout hinc hdom,
      fun heq => updatePage_of_movedIndex_eq s _ heq.symm,
      fun hne hdom => updatePage_unrendered s _ hne hdom⟩
    intro hax
    rcases hax with h | h <;> simp [forwardDirection, h, ScrollAxisX, ScrollAxisY]
  · obtain ⟨out, inc, hout, hinc⟩ :=
      updatePage_pages s
        (if s.Options.ScrollAxis = ScrollAxisX then PageDirection.Left
         else if s.Options.ScrollAxis = ScrollAxisY then PageDirection.Up
         else PageDirection.Initial) h0 h1
    refine ⟨_, _, out, inc, ?_, hout, hinc,
      fun hne hdom => updatePage_of_movedIndex_ne s _ out inc hne hout hinc hdom,
      fun heq => updatePage_of_movedIndex_eq s _ heq.symm,
      fun hne hdom => updatePage_unrendered s _ hne hdom⟩
    intro hax
    rcases hax with h | h <;> simp [backwardDirection, h, ScrollAxisX, ScrollAxisY]

theorem effective_transition_order_witness :
    (sampleApp ScrollAxisX false).Run "" = some (runningApp ScrollAxisX false, [])
      ∧ 0 ≤ (runningApp ScrollAxisX false).currentPage
      ∧ (runningApp ScrollAxisX false).currentPage
          < ((runningApp ScrollAxisX false).pages.length : Int)
      ∧ (runningApp ScrollAxisX false).containerByIndex 1 ≠ none
      ∧ (runningApp ScrollAxisX false).NextPage
          = some ({ runningApp ScrollAxisX false with currentPage := 1 },
              [Effect.OnHide homePage .Right, Effect.setTitle "About",
               Effect.pushState "#about", Effect.scrollIntoView 1,
               Effect.OnShow aboutPage .Right, Effect.onPageChange 1]) := by
  refine ⟨by decide, by decide, by decide, by decide, ?_⟩
  obtain ⟨d, new, out, inc, hd, hout, hinc, hmove, hstay, hpanic⟩ :=
    (effective_transition_order (runningApp ScrollAxisX false) (by decide) (by decide)).1
  have hdir : d = .Right := hd (Or.inl rfl)
  subst hdir
  have hval : ((runningApp ScrollAxisX false).NextPage).map (fun r => r.1.currentPage)
      = some 1 := by decide
  have hnew : new = 1 := by
    by_cases hne : (runningApp ScrollAxisX false).currentPage = new
    · rw [hstay hne] at hval
      exact absurd hval (by decide)
    · by_cases hdom : (runningApp ScrollAxisX false).containerByIndex new = none
      · rw [hpanic hne hdom] at hval
        exact absurd hval (by decide)
      · rw [hmove hne hdom] at hval
        simpa using hval
  subst hnew
  have h1 : pageAt (runningApp ScrollAxisX false).pages
      (runningApp ScrollAxisX false).currentPage = some homePage := by decide
  have h2 : pageAt (runningApp ScrollAxisX false).pages 1 = some aboutPage := by decide
  rw [h1] at hout
  rw [h2] at hinc
  cases hout
  cases hinc
  rw [hmove (by decide) (by decide)]
  decide

theorem splitRunes_no_sep (sep : Char) (l : List Char) (h : sep ∉ l) :
    strings.splitRunes sep l = [l] := by
  induction l with
  | nil => rfl
  | cons c cs ih =>
    have hc : c ≠ sep := fun e => h (e ▸ List.mem_cons_self _ _)
    have hcs : sep ∉ cs := fun e => h (List.mem_cons_of_mem _ e)
    simp [strings.splitRunes, hc, ih hcs]

/-- The fragment the listener looks up, for a location hash `#` followed by a text
without `#`. -/
theorem split_location_hash (name : String) (h : '#' ∉ name.data) :
    (strings.Split ("#" ++ name) '#')[1]? = some name := by
  have hdata : ("#" ++ name).data = '#' :: name.data := by
    rw [String.data_append]; rfl
  simp [strings.Split, hdata, strings.splitRunes, splitRunes_no_sep '#' name.data h]

/-- A slug holds no `#`. -/
theorem makeSlug_no_hash (T : UnicodeTables) (title : String) :
    '#' ∉ (makeSlug T title).data := by
  rw [makeSlug_data]
  intro hmem
  rcases mem_slugRunes T _ false '#' hmem with h | ⟨_, h⟩
  · exact absurd h (by decide)
  · have hno : (unicode.IsLetter T '#' || unicode.IsDigit T '#') = false := rfl
    rw [hno] at h
    cases h

/-- The loop of `PageByHash` stops at the first page that carries the hash. -/
theorem pageByHashFrom_first (name : String) (pages : List Page) :
    ∀ (i j : Nat) (pj : Page), pages[j]? = some pj → pj.hash = name →
      (∀ k, k < j → ∀ q, pages[k]? = some q → q.hash ≠ name) →
      pageByHashFrom name pages i = (some pj, ((i + j : Nat) : Int)) := by
  induction pages with
  | nil => intro i j pj hj; simp at hj
  | cons q rest ih =>
    intro i j pj hj hname hfirst
    cases j with
    | zero =>
      simp only [List.getElem?_cons_zero, Option.some.injEq] at hj
      subst hj
      simp [pageByHashFrom, hname]
    | succ j =>
      have hq : q.hash ≠ name := hfirst 0 (Nat.succ_pos j) q (by simp)
      have hrest := ih (i + 1) j pj (by simpa using hj) hname
        (fun k hk r hr => hfirst (k + 1) (Nat.succ_lt_succ hk) r (by simpa using hr))
      simp only [pageByHashFrom, hq, if_false]
      rw [hrest]
      congr 2
      omega

/-- C10, a case outside the claim as stated: with the pages `Home` and `home`, whose
hashes are both `home`, the index at 0 and the location hash `#home` (the hash of the
page at index 1), the listener resolves the fragment to page 0, leaves the index at 0
and fires the callbacks of page 0 with direction `Initial`; it does not move to index 1
with direction `Down`. -/
theorem hashchange_same_slug_counterexample :
    pageAt sameSlugApp.pages 1 = some lowerHomePage
      ∧ "#home" = "#" ++ lowerHomePage.hash
      ∧ (1 : Int) ≠ sameSlugApp.currentPage
      ∧ ValidAxis sameSlugApp.Options
      ∧ sameSlugApp.onHashChange "#home"
          = some (sameSlugApp,
              [Effect.OnHide homePage .Initial, Effect.OnShow homePage .Initial])
      ∧ sameSlugApp.onHashChange "#home"
          ≠ some ({ sameSlugApp with currentPage := 1 },
              [Effect.OnHide homePage .Down, Effect.OnShow lowerHomePage .Down]) := by
  refine ⟨by decide, by decide, by decide, Or.inr rfl, by decide, by decide⟩

/-- C10, amended. For pages added by `AddPage`, a valid axis and an index in range: on
a hash-change event whose fragment is the hash of the page at index `j`, `j` not the
current index and no page before `j` carrying the same hash, the listener fires the old
page's `OnHide` and page `j`'s `OnShow` (where set) with direction `Down` or `Right`
when `j` is greater than the current index and `Up` or `Left` when it is less, sets the
index to `j`, and does nothing else: no history push in particular. -/
theorem hashchange_jump_first_match (T : UnicodeTables) (s : Application) (j : Nat)
    (pj : Page) (hax : ValidAxis s.Options)
    (h0 : 0 ≤ s.currentPage) (h1 : s.currentPage < (s.pages.length : Int))
    (hadded : ∀ p ∈ s.pages, p.hash = makeSlug T p.title)
    (hj : s.pages[j]? = some pj)
    (hfirst : ∀ k, k < j → ∀ q, s.pages[k]? = some q → q.hash ≠ pj.hash)
    (hne : (j : Int) ≠ s.currentPage) :
    ∃ old : Page,
      pageAt s.pages s.currentPage = some old
      ∧ s.onHashChange ("#" ++ pj.hash)
          = some ({ s with currentPage := (j : Int) },
              fireOnHide old
                  (if (j : Int) > s.currentPage then forwardDirection s.Options.ScrollAxis
                   else backwardDirection s.Options.ScrollAxis)
                ++ fireOnShow pj
                  (if (j : Int) > s.currentPage then forwardDirection s.Options.ScrollAxis
                   else backwardDirection s.Options.ScrollAxis))
      ∧ (∀ url, Effect.pushState url ∉
            fireOnHide old
                  (if (j : Int) > s.currentPage then forwardDirection s.Options.ScrollAxis
                   else backwardDirection s.Options.ScrollAxis)
                ++ fireOnShow pj
                  (if (j : Int) > s.currentPage then forwardDirection s.Options.ScrollAxis
                   else backwardDirection s.Options.ScrollAxis)) := by
  obtain ⟨old, hold⟩ := pageAt_isSome s.pages s.currentPage h0 h1
  have hmem : pj ∈ s.pages := List.getElem?_mem hj
  have hnohash : '#' ∉ pj.hash.data := by
    rw [hadded pj hmem]; exact makeSlug_no_hash T pj.title
  have hsplit := split_location_hash pj.hash hnohash
  have hfind : s.PageByHash pj.hash = (some pj, (j : Int)) := by
    have := pageByHashFrom_first pj.hash s.pages 0 j pj hj rfl hfirst
    simpa [Application.PageByHash] using this
  refine ⟨old, hold, ?_, ?_⟩
  · unfold Application.onHashChange
    rw [hsplit]
    simp only [hfind, hold]
    by_cases hgt : (j : Int) > s.currentPage
    · rcases hax with h | h <;>
        simp [hgt, forwardDirection, h, ScrollAxisX, ScrollAxisY]
    · have hlt : (j : Int) < s.currentPage := by omega
      rcases hax with h | h <;>
        simp [hgt, hlt, backwardDirection, h, ScrollAxisX, ScrollAxisY]
  · intro url hurl
    rcases List.mem_append.1 hurl with h | h
    · unfold fireOnHide at h
      split at h <;> simp at h
    · unfold fireOnShow at h
      split at h <;> simp at h

theorem hashchange_jump_first_match_witness :
    ValidAxis (sampleApp ScrollAxisY false).Options
      ∧ (sampleApp ScrollAxisY false).currentPage = 0
      ∧ (sampleApp ScrollAxisY false).pages[2]? = some contactPage
      ∧ (sampleApp ScrollAxisY false).onHashChange "#contact"
          = some ({ sampleApp ScrollAxisY false with currentPage := 2 },
              [Effect.OnHide homePage .Down, Effect.OnShow contactPage .Down]) := by
  refine ⟨Or.inr rfl, rfl, by decide, ?_⟩
  obtain ⟨old, hold, hcall, _⟩ :=
    hashchange_jump_first_match asciiTables (sampleApp ScrollAxisY false) 2 contactPage
      (Or.inr rfl) (by decide) (by decide) (by decide) (by decide) (by decide) (by decide)
  have h1 : pageAt (sampleApp ScrollAxisY false).pages
      (sampleApp ScrollAxisY false).currentPage = some homePage := by decide
  rw [h1] at hold
  cases hold
  have hhash : "#" ++ contactPage.hash = "#contact" := by decide
  rw [hhash] at hcall
  rw [hcall]
  decide

end scroll

/-! ## Properties of the start of the controller and of its index -/

namespace scroll

/-- C11. With the pages `Home`, `About`, `Contact`, an initial hash that matches no
page makes `Run` panic (the nil page is dereferenced), where the claim asks for index 0
without failing; and with the pages `Home`, `About` without callbacks, the initial hash
`#about` of the page at index 1 leaves the index at 0. With `OnShow` set on the matching
page the index is the page's index, and with an empty hash it is 0. -/
theorem run_initial_page_failures :
    (sampleApp ScrollAxisY false).Run "#missing" = none
      ∧ pageAt plainApp.pages 1 = some plainAboutPage
      ∧ (plainApp.Run "#about").map (fun r => (r.1.currentPage, r.2)) = some (0, [])
      ∧ ((sampleApp ScrollAxisY false).Run "#about").map (fun r => (r.1.currentPage, r.2))
          = some (1, [Effect.scrollIdIntoView "about", Effect.OnShow aboutPage .Initial])
      ∧ ((sampleApp ScrollAxisY false).Run "").map (fun r => (r.1.currentPage, r.2))
          = some (0, []) := by
  refine ⟨by decide, by decide, by decide, by decide, by decide⟩

/-- The loop of `PageByHash` returns the position of a page of the list. -/
theorem pageByHashFrom_range (name : String) (pages : List Page) :
    ∀ (i : Nat) (p : Page) (index : Int), pageByHashFrom name pages i = (some p, index) →
      (i : Int) ≤ index ∧ index < (i : Int) + (pages.length : Int) := by
  induction pages with
  | nil => intro i p index h; simp [pageByHashFrom] at h
  | cons q rest ih =>
    intro i p index h
    by_cases hq : q.hash = name
    · simp only [pageByHashFrom, hq, if_true, Prod.mk.injEq] at h
      obtain ⟨_, rfl⟩ := h
      simp only [List.length_cons, Nat.cast_add, Nat.cast_one]
      omega
    · simp only [pageByHashFrom, hq, if_false] at h
      have := ih (i + 1) p index h
      simp only [List.length_cons, Nat.cast_add, Nat.cast_one] at this ⊢
      omega

/-- The listener of `hashchange` on a controller whose index is in range: it panics
only on a location hash without `#`, and it leaves the index in range. -/
theorem onHashChange_in_range (s : Application) (hash : String)
    (h0 : 0 ≤ s.currentPage) (h1 : s.currentPage < (s.pages.length : Int)) :
    (∃ (s1 : Application) (effects : List Effect),
        s.onHashChange hash = some (s1, effects) ∧ s1.pages = s.pages
        ∧ 0 ≤ s1.currentPage ∧ s1.currentPage < (s1.pages.length : Int))
      ∨ (s.onHashChange hash = none ∧ (strings.Split hash '#')[1]? = none) := by
  obtain ⟨old, hold⟩ := pageAt_isSome s.pages s.currentPage h0 h1
  unfold Application.onHashChange
  cases hsplit : (strings.Split hash '#')[1]? with
  | none => exact Or.inr ⟨rfl, rfl⟩
  | some name =>
    left
    dsimp only
    cases hfind : s.PageByHash name with
    | mk found index =>
      cases found with
      | none => exact ⟨s, [], rfl, rfl, h0, h1⟩
      | some page =>
        have hr := pageByHashFrom_range name s.pages 0 page index hfind
        simp only [hold]
        exact ⟨_, _, rfl, rfl, by simpa using hr.1, by simpa using hr.2⟩

/-- C12. On a controller whose index is in range (so with at least one page), under
either edge policy and for every axis value and direction: the index that `updatePage`
writes to `currentPage` is in range, and the two accesses to `pages` of a moving call
find their page; so `NextPage` and `PreviousPage`, when they return, leave the pages
unchanged and the index in range, and when they panic, they do so in `containerByIndex`,
on the rendered sections and not on `pages`; they return whenever every page has its
container. The listener of `hashchange` leaves the index in range for every location
hash; it panics only on a hash without `#`, before it touches the index. -/
theorem index_stays_in_range (s : Application)
    (h0 : 0 ≤ s.currentPage) (h1 : s.currentPage < (s.pages.length : Int)) :
    (∀ p : PageDirection,
        0 ≤ s.movedIndex p ∧ s.movedIndex p < (s.pages.length : Int)
        ∧ pageAt s.pages s.currentPage ≠ none ∧ pageAt s.pages (s.movedIndex p) ≠ none)
      ∧ (∀ (s1 : Application) (effects : List Effect), s.NextPage = some (s1, effects) →
          s1.pages = s.pages ∧ 0 ≤ s1.currentPage ∧ s1.currentPage < (s1.pages.length : Int))
      ∧ (∀ (s1 : Application) (effects : List Effect), s.PreviousPage = some (s1, effects) →
          s1.pages = s.pages ∧ 0 ≤ s1.currentPage ∧ s1.currentPage < (s1.pages.length : Int))
      ∧ (s.NextPage = none →
          ∃ p : PageDirection, s.NextPage = s.updatePage p ∧ s.currentPage ≠ s.movedIndex p
            ∧ s.containerByIndex (s.movedIndex p) = none)
      ∧ (s.PreviousPage = none →
          ∃ p : PageDirection, s.PreviousPage = s.updatePage p
            ∧ s.currentPage ≠ s.movedIndex p
            ∧ s.containerByIndex (s.movedIndex p) = none)
      ∧ ((∀ i : Int, 0 ≤ i → i < (s.pages.length : Int) → s.containerByIndex i ≠ none) →
          (∃ (s1 : Application) (effects : List Effect), s.NextPage = some (s1, effects))
          ∧ (∃ (s1 : Application) (effects : List Effect),
              s.PreviousPage = some (s1, effects)))
      ∧ (∀ hash : String,
        (∃ (s1 : Application) (effects : List Effect),
          s.onHashChange hash = some (s1, effects) ∧ s1.pages = s.pages
          ∧ 0 ≤ s1.currentPage ∧ s1.currentPage < (s1.pages.length : Int))
        ∨ (s.onHashChange hash = none ∧ (strings.Split hash '#')[1]? = none)) := by
  have hsome : ∀ (p : PageDirection) (s1 : Application) (effects : List Effect),
      s.updatePage p = some (s1, effects) →
      s1.pages = s.pages ∧ 0 ≤ s1.currentPage ∧ s1.currentPage < (s1.pages.length : Int) := by
    intro p s1 effects h
    have hs1 := updatePage_some s s1 p effects h
    have hr := movedIndex_in_range s p h0 h1
    subst hs1
    exact ⟨rfl, hr.1, hr.2⟩
  have hnone : ∀ p : PageDirection, s.updatePage p = none →
      s.currentPage ≠ s.movedIndex p ∧ s.containerByIndex (s.movedIndex p) = none := by
    intro p h
    obtain ⟨out, inc, hout, hinc⟩ := updatePage_pages s p h0 h1
    by_cases hmove : s.currentPage = s.movedIndex p
    · rw [updatePage_of_movedIndex_eq s p hmove.symm] at h
      cases h
    · refine ⟨hmove, ?_⟩
      by_contra hdom
      rw [updatePage_of_movedIndex_ne s p out inc hmove hout hinc hdom] at h
      cases h
  have htotal : ∀ p : PageDirection,
      (∀ i : Int, 0 ≤ i → i < (s.pages.length : Int) → s.containerByIndex i ≠ none) →
      ∃ (s1 : Application) (effects : List Effect), s.updatePage p = some (s1, effects) := by
    intro p hdom
    cases h : s.updatePage p with
    | some r => exact ⟨r.1, r.2, rfl⟩
    | none =>
      have hr := movedIndex_in_range s p h0 h1
      exact absurd (hnone p h).2 (hdom _ hr.1 hr.2)
  refine ⟨?_, fun s1 effects h => hsome _ s1 effects h, fun s1 effects h => hsome _ s1 effects h,
    fun h => ⟨_, rfl, hnone _ h⟩, fun h => ⟨_, rfl, hnone _ h⟩,
    fun hdom => ⟨htotal _ hdom, htotal _ hdom⟩,
    fun hash => onHashChange_in_range s hash h0 h1⟩
  intro p
  obtain ⟨out, inc, hout, hinc⟩ := updatePage_pages s p h0 h1
  have hr := movedIndex_in_range s p h0 h1
  exact ⟨hr.1, hr.2, by rw [hout]; simp, by rw [hinc]; simp⟩

theorem index_stays_in_range_witness :
    (sampleApp ScrollAxisY true).Run "" = some (runningApp ScrollAxisY true, [])
      ∧ 0 ≤ (runningApp ScrollAxisY true).currentPage
      ∧ (runningApp ScrollAxisY true).currentPage
          < ((runningApp ScrollAxisY true).pages.length : Int)
      ∧ (runningApp ScrollAxisY true).PreviousPage.map (fun r => r.1.currentPage) = some 2
      ∧ (∀ (s1 : Application) (effects : List Effect),
          (runningApp ScrollAxisY true).PreviousPage = some (s1, effects) →
          s1.pages = (runningApp ScrollAxisY true).pages
          ∧ 0 ≤ s1.currentPage ∧ s1.currentPage < (s1.pages.length : Int)) :=
  ⟨by decide, by decide, by decide, by decide,
    (index_stays_in_range (runningApp ScrollAxisY true) (by decide) (by decide)).2.2.1⟩

/-- C13. With the pages `Home`, `About`, `Contact` on the Y axis and the index at 0, a
hash-change event with the location hash `#home`, the hash of the current page, fires
the `OnHide` and the `OnShow` of that page with the direction `Initial`. -/
theorem hashchange_current_page_initial :
    (sampleApp ScrollAxisY false).currentPage = 0
      ∧ pageAt (sampleApp ScrollAxisY false).pages 0 = some homePage
      ∧ (sampleApp ScrollAxisY false).onHashChange "#home"
          = some (sampleApp ScrollAxisY false,
              [Effect.OnHide homePage .Initial, Effect.OnShow homePage .Initial]) := by
  refine ⟨rfl, by decide, by decide⟩

end scroll

/-! ## Properties of the wheel listener -/

namespace scroll

/-- While `scrolled` is set the listener drops a wheel event. -/
theorem onWheel_scrolled (s : Application) (w : Wheel) (dy : Int) (h : w.scrolled = true) :
    s.onWheel w dy = some (s, w, []) := by
  simp [Application.onWheel, h]

/-- After its first wheel event the listener has `scrolled` set. -/
theorem onWheel_sets_scrolled (s s1 : Application) (w w1 : Wheel) (dy : Int)
    (effects : List Effect) (h : s.onWheel w dy = some (s1, w1, effects)) :
    w1.scrolled = true := by
  unfold Application.onWheel at h
  cases hsc : w.scrolled with
  | true =>
    simp [hsc] at h
    rw [← h.2.1]; exact hsc
  | false =>
    simp only [hsc, Bool.not_false, if_true] at h
    split at h
    · cases h
    · simp only [Option.some.injEq, Prod.mk.injEq] at h
      rw [← h.2.1]

/-- From the start of the listener on, a goroutine is asleep exactly while `scrolled`
is set, and never more than one. -/
theorem wheel_one_sleeper (events : List WheelEvent) :
    ∀ (s s1 : Application) (w w1 : Wheel) (effects : List Effect),
      ((w.scrolled = true ∧ w.sleeping = 1) ∨ (w.scrolled = false ∧ w.sleeping = 0)) →
      runWheel s w events = some (s1, w1, effects) →
      ((w1.scrolled = true ∧ w1.sleeping = 1) ∨ (w1.scrolled = false ∧ w1.sleeping = 0)) := by
  induction events with
  | nil =>
    intro s s1 w w1 effects hw hrun
    simp only [runWheel, Option.some.injEq, Prod.mk.injEq] at hrun
    rw [← hrun.2.1]; exact hw
  | cons e es ih =>
    intro s s1 w w1 effects hw hrun
    simp only [runWheel] at hrun
    cases hstep : wheelStep s w e with
    | none => simp [hstep] at hrun
    | some r =>
      obtain ⟨s2, w2, e2⟩ := r
      simp only [hstep] at hrun
      cases hrest : runWheel s2 w2 es with
      | none => simp [hrest] at hrun
      | some r3 =>
        obtain ⟨s3, w3, e3⟩ := r3
        simp only [hrest, Option.some.injEq, Prod.mk.injEq] at hrun
        rw [← hrun.2.1]
        refine ih s2 s3 w2 w3 e3 ?_ hrest
        cases e with
        | wheel dy =>
          simp only [wheelStep] at hstep
          rcases hw with ⟨hsc, hsl⟩ | ⟨hsc, hsl⟩
          · rw [onWheel_scrolled s w dy hsc] at hstep
            simp only [Option.some.injEq, Prod.mk.injEq] at hstep
            rw [← hstep.2.1]; exact Or.inl ⟨hsc, hsl⟩
          · left
            refine ⟨onWheel_sets_scrolled s s2 w w2 dy e2 hstep, ?_⟩
            unfold Application.onWheel at hstep
            simp only [hsc, Bool.not_false, if_true] at hstep
            split at hstep
            · cases hstep
            · simp only [Option.some.injEq, Prod.mk.injEq] at hstep
              rw [← hstep.2.1, hsl]
        | timerReset =>
          simp only [wheelStep] at hstep
          rcases hw with ⟨hsc, hsl⟩ | ⟨hsc, hsl⟩
          · simp only [hsl, Nat.lt_one_iff, if_true, Option.some.injEq, Prod.mk.injEq,
              Nat.zero_lt_one] at hstep
            rw [← hstep.2.1]
            right
            simp [Wheel.wake, hsl]
          · simp only [hsl, Nat.lt_irrefl, if_false, Option.some.injEq, Prod.mk.injEq] at hstep
            rw [← hstep.2.1]; exact Or.inr ⟨hsc, hsl⟩

end scroll

/-! ## Properties of the JWT decoder -/

namespace tokens

/-- C15. `DecodeToken` returns the zero token with the error `invalid token` whenever
the split of the token on `.` does not give exactly three segments (two segments in
particular), and the zero token with the error of the base64url decoder whenever one of
three segments is not valid; in neither case does it panic. -/
theorem decodeToken_rejects (D : Decoders) (token : String) :
    ((strings.Split token '.').length ≠ 3 →
        DecodeToken D token = some (JWTToken.zero, some "invalid token"))
      ∧ ((strings.Split token '.').length = 2 →
        DecodeToken D token = some (JWTToken.zero, some "invalid token"))
      ∧ (∀ p0 p1 p2 : String, strings.Split token '.' = [p0, p1, p2] →
          ((∃ err, D.decodeString p0 = .error err) ∨ (∃ err, D.decodeString p1 = .error err)
            ∨ (∃ err, D.decodeString p2 = .error err)) →
          ∃ err, DecodeToken D token = some (JWTToken.zero, some err)) := by
  refine ⟨?_, ?_, ?_⟩
  · intro h
    simp [DecodeToken, h]
  · intro h
    simp [DecodeToken, h]
  · intro p0 p1 p2 hsplit hbad
    unfold DecodeToken
    simp only [hsplit, List.length_cons, List.length_nil, ne_eq, not_true_eq_false,
      if_false, List.getD_cons_zero, List.getD_cons_succ]
    cases h0 : D.decodeString p0 with
    | error e0 => exact ⟨e0, rfl⟩
    | ok b0 =>
      cases h1 : D.decodeString p1 with
      | error e1 => exact ⟨e1, rfl⟩
      | ok b1 =>
        cases h2 : D.decodeString p2 with
        | error e2 => exact ⟨e2, rfl⟩
        | ok b2 =>
          rcases hbad with ⟨e, he⟩ | ⟨e, he⟩ | ⟨e, he⟩
          · rw [h0] at he; cases he
          · rw [h1] at he; cases he
          · rw [h2] at he; cases he

theorem decodeToken_rejects_witness :
    (strings.Split "eyJhbGciOiJIUzI1NiJ9.eyJleHAiOjF9" '.').length = 2
      ∧ DecodeToken sampleDecoders "eyJhbGciOiJIUzI1NiJ9.eyJleHAiOjF9"
          = some (JWTToken.zero, some "invalid token")
      ∧ strings.Split "eyJhbGciOiJIUzI1NiJ9.e!.c2ln" '.' = ["eyJhbGciOiJIUzI1NiJ9", "e!", "c2ln"]
      ∧ ∃ err, DecodeToken sampleDecoders "eyJhbGciOiJIUzI1NiJ9.e!.c2ln"
          = some (JWTToken.zero, some err) :=
  ⟨by decide,
    (decodeToken_rejects sampleDecoders "eyJhbGciOiJIUzI1NiJ9.eyJleHAiOjF9").2.1 (by decide),
    by decide,
    (decodeToken_rejects sampleDecoders "eyJhbGciOiJIUzI1NiJ9.e!.c2ln").2.2
      "eyJhbGciOiJIUzI1NiJ9" "e!" "c2ln" (by decide)
      (Or.inr (Or.inl ⟨"illegal base64 data", rfl⟩))⟩

end tokens

/-! ## Properties of `FromMap` -/

namespace router

/-- C16. On the option record with the documented fields `name`, `href`, `text` and
`class` (a list of strings), `FromMap` panics in the type assertion on `v["classes"]`
and inserts nothing; the same record without `class` is inserted under `HOME`. -/
theorem fromMap_class_panics :
    classRecord.index "class" = .strings ["nav"]
      ∧ (NewURLs.FromMap "/#" asciiTables blankHeap 7 [classRecord]).panicked
          = some "interface conversion: interface {} is nil, not []string"
      ∧ (NewURLs.FromMap "/#" asciiTables blankHeap 7 [classRecord]).u = NewURLs
      ∧ (NewURLs.FromMap "/#" asciiTables blankHeap 7 [plainRecord]).panicked = none
      ∧ (NewURLs.FromMap "/#" asciiTables blankHeap 7 [plainRecord]).u
          = { order := ["HOME"], urls := [("HOME", 7)] }
      ∧ (NewURLs.FromMap "/#" asciiTables blankHeap 7 [plainRecord]).heap.elems 7
          = { Text := "Home", href := "/#/home" } := by
  refine ⟨by decide, by decide, by decide, by decide, by decide, by decide⟩

end router

/-! ## Properties of `charts.Min` -/

namespace charts

theorem foldl_min_le_init (a : List Int) :
    ∀ m : Int, a.foldl (fun min v => if v < min then v else min) m ≤ m := by
  induction a with
  | nil => intro m; exact le_refl m
  | cons x xs ih =>
    intro m
    simp only [List.foldl_cons]
    split
    · exact le_trans (ih x) (by omega)
    · exact ih m

theorem foldl_min_le_mem (a : List Int) :
    ∀ m : Int, ∀ x ∈ a, a.foldl (fun min v => if v < min then v else min) m ≤ x := by
  induction a with
  | nil => intro m x hx; cases hx
  | cons y ys ih =>
    intro m x hx
    simp only [List.foldl_cons]
    rcases List.mem_cons.1 hx with h | h
    · subst h
      split
      · exact foldl_min_le_init ys x
      · exact le_trans (foldl_min_le_init ys m) (by omega)
    · exact ih _ x h

theorem foldl_min_mem (a : List Int) :
    ∀ m : Int, a.foldl (fun min v => if v < min then v else min) m = m
      ∨ a.foldl (fun min v => if v < min then v else min) m ∈ a := by
  induction a with
  | nil => intro m; exact Or.inl rfl
  | cons y ys ih =>
    intro m
    simp only [List.foldl_cons]
    split
    · rcases ih y with h | h
      · rw [h]; exact Or.inr (List.mem_cons_self _ _)
      · exact Or.inr (List.mem_cons_of_mem _ h)
    · rcases ih m with h | h
      · exact Or.inl h
      · exact Or.inr (List.mem_cons_of_mem _ h)

/-- C17. `Min` returns the smallest value among 0 and its arguments: it is 0 or an
argument, at most 0 and at most every argument. It is 0 for no argument and for
positive arguments only, and for one argument or more it is the minimum of the
arguments exactly when some argument is at most 0. -/
theorem min_from_zero (a : List Int) :
    (Min a = 0 ∨ Min a ∈ a) ∧ Min a ≤ 0 ∧ (∀ x ∈ a, Min a ≤ x)
      ∧ Min [] = 0
      ∧ ((∀ x ∈ a, 0 < x) → Min a = 0)
      ∧ (a ≠ [] → ((Min a ∈ a ∧ ∀ x ∈ a, Min a ≤ x) ↔ ∃ x ∈ a, x ≤ 0)) := by
  have hmem : Min a = 0 ∨ Min a ∈ a := foldl_min_mem a 0
  have hle0 : Min a ≤ 0 := foldl_min_le_init a 0
  have hle : ∀ x ∈ a, Min a ≤ x := foldl_min_le_mem a 0
  refine ⟨hmem, hle0, hle, rfl, ?_, ?_⟩
  · intro hpos
    rcases hmem with h | h
    · exact h
    · have := hpos _ h
      omega
  · intro _
    constructor
    · intro h
      exact ⟨Min a, h.1, hle0⟩
    · rintro ⟨x, hx, hx0⟩
      refine ⟨?_, hle⟩
      rcases hmem with h | h
      · have hxle : Min a ≤ x := hle x hx
        have hxeq : x = Min a := by omega
        rw [← hxeq]; exact hx
      · exact h

theorem min_from_zero_witness :
    (∀ x ∈ [3, 1, 2], (0 : Int) < x) ∧ Min [3, 1, 2] = 0
      ∧ ([4, -2, 7] : List Int) ≠ [] ∧ (∃ x ∈ [4, -2, 7], x ≤ (0 : Int))
      ∧ Min [4, -2, 7] ∈ [4, -2, 7] ∧ (∀ x ∈ [4, -2, 7], Min [4, -2, 7] ≤ x) :=
  ⟨by decide, (min_from_zero [3, 1, 2]).2.2.2.2.1 (by decide), by decide, by decide,
    ((min_from_zero [4, -2, 7]).2.2.2.2.2 (by decide)).2 (by decide)⟩

end charts
